import Mathlib

set_option maxRecDepth 8000

/-!
Verification of the opening-hours schedule core of `gmaps2vcard`
(`schedule/schedule.go`): the text normalizer, the schedule builder and
the formatter.  Go strings are modelled as `List Char` (every pattern the
code searches for is either pure ASCII or a whole Unicode code point, so
byte-level and rune-level matching coincide on the patterns involved).
Logging statements in the Go code write to stderr only and are not part
of the value semantics; the `debug` parameters are kept in the
signatures and, as in the source, never influence any returned value.
-/

namespace GoString

/-- Characters counted as whitespace by Go's `regexp` class `\s`
(`[\t\n\f\r ]`), used in the time-interval pattern. -/
def isSpaceChar (c : Char) : Bool :=
  c = ' ' || c = '\t' || c = '\n' || c = '\x0c' || c = '\r'

/-- Characters trimmed by `strings.TrimSpace` (ASCII whitespace suffices
for the schedule domain). -/
def isTrimChar (c : Char) : Bool :=
  c = ' ' || c = '\t' || c = '\n' || c = '\x0c' || c = '\r' || c = '\x0b'

/-- Go's `unicode.ToLower` restricted to the characters that occur in the
schedule domain: ASCII letters and the Spanish accented vowels. -/
def toLowerChar (c : Char) : Char :=
  if 'A' ≤ c ∧ c ≤ 'Z' then Char.ofNat (c.toNat + 32)
  else if c = 'Á' then 'á'
  else if c = 'É' then 'é'
  else if c = 'Í' then 'í'
  else if c = 'Ó' then 'ó'
  else if c = 'Ú' then 'ú'
  else if c = 'Ñ' then 'ñ'
  else if c = 'Ü' then 'ü'
  else c

/-- Go's `strings.ToLower`. -/
def toLowerStr (s : List Char) : List Char := s.map toLowerChar

/-- Fuel-driven core of `strings.ReplaceAll`: scan left to right,
replacing non-overlapping occurrences of `p :: ps`.  The fuel is an
upper bound on the number of characters still to be scanned. -/
def replaceAllGo (p : Char) (ps rep : List Char) : Nat → List Char → List Char
  | 0, s => s
  | _ + 1, [] => []
  | fuel + 1, c :: rest =>
    if (p :: ps).isPrefixOf (c :: rest) then
      rep ++ replaceAllGo p ps rep fuel (rest.drop ps.length)
    else
      c :: replaceAllGo p ps rep fuel rest

/-- Go's `strings.ReplaceAll pat rep s` (the code never calls it with an
empty pattern; that case is the identity here). -/
def replaceAll (pat rep s : List Char) : List Char :=
  match pat with
  | [] => s
  | p :: ps => replaceAllGo p ps rep s.length s

/-- The regex pass `regexp.MustCompile(" +").ReplaceAllString(s, " ")`: collapse every
maximal run of spaces to a single space (a space followed by a space is
dropped, keeping the last space of each run). -/
def collapseSpaces : List Char → List Char
  | [] => []
  | [c] => [c]
  | c₁ :: c₂ :: rest =>
    if c₁ = ' ' ∧ c₂ = ' ' then collapseSpaces (c₂ :: rest)
    else c₁ :: collapseSpaces (c₂ :: rest)

/-- Go's `strings.Index pat` (first index at which `pat` occurs), as an
`Option Nat` instead of Go's `-1` convention. -/
def firstIndex (pat : List Char) : List Char → Option Nat
  | [] => if pat.isPrefixOf [] then some 0 else none
  | c :: rest =>
    if pat.isPrefixOf (c :: rest) then some 0
    else (firstIndex pat rest).map (· + 1)

/-- Go's `strings.Contains` (`strings.Index ≥ 0`). -/
def containsSub (pat s : List Char) : Bool := (firstIndex pat s).isSome

/-- Go's `strings.TrimSpace`. -/
def trimSpace (s : List Char) : List Char :=
  ((s.dropWhile isTrimChar).reverse.dropWhile isTrimChar).reverse

/-- Go's `strings.Split s ":"`-style splitting on a single character. -/
def splitOnChar (sep : Char) : List Char → List (List Char)
  | [] => [[]]
  | c :: rest =>
    if c = sep then [] :: splitOnChar sep rest
    else
      match splitOnChar sep rest with
      | [] => [[c]]
      | x :: xs => (c :: x) :: xs

/-- Go's `strings.Join parts sep`. -/
def joinSep (sep : List Char) : List (List Char) → List Char
  | [] => []
  | [x] => x
  | x :: y :: rest => x ++ sep ++ joinSep sep (y :: rest)

end GoString

namespace Schedule

open GoString

/-- The type `DayOfWeek` (0 = Sunday … 6 = Saturday, the storage ordinal). -/
abbrev DayOfWeek := Fin 7

def Sunday : DayOfWeek := 0
def Monday : DayOfWeek := 1
def Tuesday : DayOfWeek := 2
def Wednesday : DayOfWeek := 3
def Thursday : DayOfWeek := 4
def Friday : DayOfWeek := 5
def Saturday : DayOfWeek := 6

/-- The method `DayOfWeek.String()`: the English 3-letter abbreviation. -/
def dayAbbrev (d : DayOfWeek) : List Char :=
  (["Sun", "Mon", "Tue", "Wed", "Thu", "Fri", "Sat"].get (d.cast (by decide))).data

/-- The struct `TimeRange`: one `"HH:MM"`–`"HH:MM"` period. -/
structure TimeRange where
  Start : List Char
  End : List Char
  deriving DecidableEq, Repr

/-- The method `TimeRange.String()`: `"Start-End"`. -/
def TimeRange.render (tr : TimeRange) : List Char :=
  tr.Start ++ '-' :: tr.End

/-- The struct `DaySchedule`: all time ranges for a single day. -/
structure DaySchedule where
  Day : DayOfWeek
  Ranges : List TimeRange
  Closed : Bool
  deriving DecidableEq, Repr

/-- The struct `WeekSchedule`: a full week of business hours, indexed by the
storage ordinal. -/
structure WeekSchedule where
  Days : Fin 7 → DaySchedule

/-- The function `normalizeText`: cleans and standardizes the input text.  The Go
function iterates the day-translation map; the substitution order used
here is the order of the map literal in the source. -/
def normalizeText (text : List Char) (_debug : Bool) : List Char :=
  let text := replaceAll "–".data "-".data text
  let text := replaceAll "—".data "-".data text
  let text := replaceAll "–".data "-".data text
  let text := replaceAll "—".data "-".data text
  let text := replaceAll "\t".data " ".data text
  let text := replaceAll "\r".data "".data text
  let text := collapseSpaces text
  let text := replaceAll "\n".data " ".data text
  let lower := toLowerStr text
  let lower := replaceAll "lunes".data "monday".data lower
  let lower := replaceAll "martes".data "tuesday".data lower
  let lower := replaceAll "miércoles".data "wednesday".data lower
  let lower := replaceAll "miercoles".data "wednesday".data lower
  let lower := replaceAll "jueves".data "thursday".data lower
  let lower := replaceAll "viernes".data "friday".data lower
  let lower := replaceAll "sábado".data "saturday".data lower
  let lower := replaceAll "sabado".data "saturday".data lower
  let lower := replaceAll "domingo".data "sunday".data lower
  let lower := replaceAll "cerrado".data "closed".data lower
  lower

/-- The parser's fixed processing order of English day names
(`days` in `parseScheduleText`). -/
def daysList : List (List Char) :=
  ["monday".data, "tuesday".data, "wednesday".data, "thursday".data,
   "friday".data, "saturday".data, "sunday".data]

def isDigitChar (c : Char) : Bool := '0' ≤ c && c ≤ '9'

/-- Match `\d{1,2}:` at the head of the input (greedy two digits first,
with the regex backtracking to one digit when no colon follows), giving
the hour digits and the rest after the colon. -/
def matchHourColon : List Char → Option (List Char × List Char)
  | a :: b :: rest =>
    if isDigitChar a && isDigitChar b then
      match rest with
      | ':' :: r => some ([a, b], r)
      | _ => none
    else if isDigitChar a && b = ':' then some ([a], rest)
    else none
  | _ => none

/-- Match exactly `\d{2}` at the head of the input. -/
def matchTwoDigits : List Char → Option (List Char × List Char)
  | a :: b :: rest =>
    if isDigitChar a && isDigitChar b then some ([a, b], rest) else none
  | _ => none

/-- Match `(\d{1,2}:\d{2})\s*-\s*(\d{1,2}:\d{2})` at the head of the
input; on success returns the two captured groups and the remainder
after the whole match. -/
def matchTimePair (s : List Char) : Option (List Char × List Char × List Char) :=
  match matchHourColon s with
  | none => none
  | some (h₁, r₁) =>
    match matchTwoDigits r₁ with
    | none => none
    | some (m₁, r₂) =>
      match r₂.dropWhile isSpaceChar with
      | '-' :: r₃ =>
        match matchHourColon (r₃.dropWhile isSpaceChar) with
        | none => none
        | some (h₂, r₅) =>
          match matchTwoDigits r₅ with
          | none => none
          | some (m₂, r₆) => some (h₁ ++ ':' :: m₁, h₂ ++ ':' :: m₂, r₆)
      | _ => none

/-- Fuel-driven scan of `FindAllStringSubmatch`: leftmost matches,
non-overlapping, continuing after each match. -/
def findTimesGo : Nat → List Char → List (List Char × List Char)
  | 0, _ => []
  | _ + 1, [] => []
  | fuel + 1, c :: rest =>
    match matchTimePair (c :: rest) with
    | some (g₁, g₂, r) => (g₁, g₂) :: findTimesGo fuel r
    | none => findTimesGo fuel rest

/-- All `HH:MM-HH:MM`-shaped intervals in the text, in match order
(`timeRegex.FindAllStringSubmatch(dayContent, -1)`). -/
def findTimes (s : List Char) : List (List Char × List Char) :=
  findTimesGo s.length s

/-- The function `normalizeTime`: zero-pad a single-digit hour in an `H:MM` string. -/
def normalizeTime (t : List Char) : List Char :=
  match splitOnChar ':' t with
  | [hour, minute] =>
    (if hour.length = 1 then '0' :: hour else hour) ++ ':' :: minute
  | _ => t

/-- One step of the `nextDayIdx` scan: lower the bound `acc` when
`otherDay` (a day other than the one being parsed) occurs earlier. -/
def nextDayStep (day after : List Char) (acc : Nat) (otherDay : List Char) : Nat :=
  if otherDay ≠ day then
    match firstIndex otherDay after with
    | some idx => if idx < acc then idx else acc
    | none => acc
  else acc

/-- The `nextDayIdx` scan of `parseScheduleText`: the position, within
the text after the day name, of the nearest occurrence of any other day
name (the window length when none occurs). -/
def nextDayIndex (day after : List Char) : Nat :=
  daysList.foldl (nextDayStep day after) after.length

/-- The body of `parseScheduleText`'s per-day loop: `none` when the day
is not mentioned (or its window has neither `closed` nor any interval),
`some []` when the window contains `closed`, `some ranges` otherwise. -/
def processDay (text day : List Char) : Option (List TimeRange) :=
  match firstIndex day text with
  | none => none
  | some dayIdx =>
    let afterDay := text.drop (dayIdx + day.length)
    let dayContent := trimSpace (afterDay.take (nextDayIndex day afterDay))
    if containsSub "closed".data dayContent then some []
    else
      match findTimes dayContent with
      | [] => none
      | matches₀ =>
        some (matches₀.map fun m => ⟨normalizeTime m.1, normalizeTime m.2⟩)

/-- The function `parseScheduleText`: the day → time-ranges map, as an association
list keyed by the day names actually found, in processing order. -/
def parseScheduleText (text : List Char) (_debug : Bool) :
    List (List Char × List TimeRange) :=
  daysList.filterMap fun day => (processDay text day).map (day, ·)

/-- The function `dayNameToNumber`: English day name → storage ordinal. -/
def dayNameToNumber (name : List Char) : Option DayOfWeek :=
  let name := toLowerStr name
  if name = "sunday".data then some Sunday
  else if name = "monday".data then some Monday
  else if name = "tuesday".data then some Tuesday
  else if name = "wednesday".data then some Wednesday
  else if name = "thursday".data then some Thursday
  else if name = "friday".data then some Friday
  else if name = "saturday".data then some Saturday
  else none

/-- The initialization loop of `Parse`: every day default-closed. -/
def initWeek : WeekSchedule :=
  ⟨fun i => ⟨i, [], true⟩⟩

/-- Overwrite one day of a week. -/
def setDay (ws : WeekSchedule) (n : DayOfWeek) (d : DaySchedule) : WeekSchedule :=
  ⟨fun i => if i = n then d else ws.Days i⟩

/-- The population loop of `Parse`: for each extracted `(day, ranges)`
pair, store the ranges and set `Closed` to `len(ranges) == 0`. -/
def populateWeek (ws : WeekSchedule)
    (entries : List (List Char × List TimeRange)) : WeekSchedule :=
  entries.foldl
    (fun w e =>
      match dayNameToNumber e.1 with
      | some dayNum => setDay w dayNum ⟨dayNum, e.2, e.2.length == 0⟩
      | none => w)
    ws

/-- The function `Parse`: extract a structured schedule from raw text (the Go
function's `error` result is always `nil`). -/
def Parse (rawText : List Char) (debug : Bool) : WeekSchedule :=
  populateWeek initWeek (parseScheduleText (normalizeText rawText debug) debug)

/-- Go's byte-wise `<` on strings, on char lists. -/
def lexLt : List Char → List Char → Bool
  | [], [] => false
  | [], _ :: _ => true
  | _ :: _, [] => false
  | a :: as, b :: bs => if a < b then true else if b < a then false else lexLt as bs

/-- The comparator relation used to sort a group's ranges:
`ranges[i].Start < ranges[j].Start` made into the reflexive total
relation under which Lean's insertion sort produces a nondecreasing
list, as Go's `sort.Slice` does. -/
def trLe (a b : TimeRange) : Prop := lexLt b.Start a.Start = false

instance : DecidableRel trLe := fun a b => by unfold trLe; infer_instance

/-- The function `schedulesEqual`: same `Closed` flag, same ranges in stored order
(the `Day` field is not compared). -/
def schedulesEqual (a b : DaySchedule) : Bool :=
  a.Closed == b.Closed && a.Ranges == b.Ranges

/-- The struct `dayGroup`: consecutive days sharing one schedule. -/
structure dayGroup where
  StartDay : DayOfWeek
  EndDay : DayOfWeek
  Ranges : List TimeRange
  Closed : Bool

/-- The list `orderedDays` in `groupConsecutiveDays`: the business display
order, Monday first. -/
def displayOrder : List DayOfWeek :=
  [Monday, Tuesday, Wednesday, Thursday, Friday, Saturday, Sunday]

/-- The grouping loop of `groupConsecutiveDays`: extend the current run
(first day's schedule `cur`, days `start..last`) while the next day's
schedule equals `cur`, then emit the group and start a fresh run. -/
def groupAux (ws : WeekSchedule) (cur : DaySchedule)
    (start last : DayOfWeek) : List DayOfWeek → List dayGroup
  | [] => [⟨start, last, cur.Ranges, cur.Closed⟩]
  | d :: rest =>
    if schedulesEqual cur (ws.Days d) then groupAux ws cur start d rest
    else
      ⟨start, last, cur.Ranges, cur.Closed⟩ ::
        groupAux ws (ws.Days d) d d rest

/-- The function `groupConsecutiveDays`: maximal runs of display-consecutive days
with identical schedules. -/
def groupConsecutiveDays (ws : WeekSchedule) : List dayGroup :=
  match displayOrder with
  | [] => []
  | d :: rest => groupAux ws (ws.Days d) d d rest

/-- The day-label part of a formatted group (`"Mon"` or `"Mon-Fri"`). -/
def dayPartStr (g : dayGroup) : List Char :=
  if g.StartDay = g.EndDay then dayAbbrev g.StartDay
  else dayAbbrev g.StartDay ++ '-' :: dayAbbrev g.EndDay

/-- The ranges text of an open group: ranges copied, sorted by start
time, rendered and comma-joined. -/
def renderedRanges (rs : List TimeRange) : List Char :=
  joinSep ", ".data ((rs.insertionSort trLe).map TimeRange.render)

/-- The hours part of a formatted group: `"Closed"` when the closed
flag is set or the range list is empty, the sorted range list
otherwise. -/
def hoursText (closed : Bool) (rs : List TimeRange) : List Char :=
  if closed || rs.length == 0 then "Closed".data else renderedRanges rs

/-- The function `formatGroup`. -/
def formatGroup (g : dayGroup) (_debug : Bool) : List Char :=
  dayPartStr g ++ ' ' :: hoursText g.Closed g.Ranges

/-- The function `Format`: the consolidated, human-readable output line. -/
def Format (ws : WeekSchedule) (debug : Bool) : List Char :=
  joinSep "; ".data
    ((groupConsecutiveDays ws).map fun g => formatGroup g debug)

/-- Display position of a day (Monday = 0 … Sunday = 6). -/
def dIdx (d : DayOfWeek) : Nat := (d.val + 6) % 7

/-- Day at a display position. -/
def dispDay (p : Nat) : DayOfWeek := displayOrder.getD p Sunday

/-- The schedule stored at a display position. -/
def schedAtPos (ws : WeekSchedule) (p : Nat) : DaySchedule :=
  ws.Days (dispDay p)

/-- A group's day span contains the display position `p`. -/
def coversPos (g : dayGroup) (p : Nat) : Prop :=
  dIdx g.StartDay ≤ p ∧ p ≤ dIdx g.EndDay

instance (g : dayGroup) (p : Nat) : Decidable (coversPos g p) := by
  unfold coversPos
  infer_instance

/-!
Store-passing model of `Format`, for the frame property.  Go slices
alias a backing array on the heap; `dayGroup.Ranges` is a slice header
copied from the day's `DaySchedule.Ranges`, so an in-place sort of the
group's slice would be visible through the `WeekSchedule`.  The heap of
backing arrays is a `Store`, a slice is an index into it, and every
step of `Format` threads the store exactly as the Go code manipulates
memory: `formatGroup` allocates a fresh array (`make` + `copy`) and
sorts that fresh array in place (`sort.Slice`).
-/

/-- The heap of range-slice backing arrays. -/
abbrev Store := List (List TimeRange)

/-- Dereference a slice. -/
def readS (st : Store) (r : Nat) : List TimeRange := (st[r]?).getD []

/-- A `DaySchedule` with its ranges held as a slice reference. -/
structure DayScheduleM where
  Day : DayOfWeek
  RangesRef : Nat
  Closed : Bool

/-- A `WeekSchedule` over the store. -/
structure WeekScheduleM where
  Days : Fin 7 → DayScheduleM

/-- A `dayGroup` over the store: its `Ranges` field is the slice header
copied from the run's first day. -/
structure dayGroupM where
  StartDay : DayOfWeek
  EndDay : DayOfWeek
  RangesRef : Nat
  Closed : Bool

/-- The function `schedulesEqual` in the store model (slice contents compared). -/
def schedulesEqualM (st : Store) (a b : DayScheduleM) : Bool :=
  a.Closed == b.Closed && readS st a.RangesRef == readS st b.RangesRef

/-- Grouping loop in the store model; grouping only reads the store. -/
def groupAuxM (st : Store) (ws : WeekScheduleM) (cur : DayScheduleM)
    (start last : DayOfWeek) : List DayOfWeek → List dayGroupM
  | [] => [⟨start, last, cur.RangesRef, cur.Closed⟩]
  | d :: rest =>
    if schedulesEqualM st cur (ws.Days d) then groupAuxM st ws cur start d rest
    else
      ⟨start, last, cur.RangesRef, cur.Closed⟩ ::
        groupAuxM st ws (ws.Days d) d d rest

/-- The function `groupConsecutiveDays` in the store model. -/
def groupConsecutiveDaysM (st : Store) (ws : WeekScheduleM) : List dayGroupM :=
  match displayOrder with
  | [] => []
  | d :: rest => groupAuxM st ws (ws.Days d) d d rest

/-- Day label of a group in the store model. -/
def dayPartStrM (g : dayGroupM) : List Char :=
  if g.StartDay = g.EndDay then dayAbbrev g.StartDay
  else dayAbbrev g.StartDay ++ '-' :: dayAbbrev g.EndDay

/-- The function `formatGroup` in the store model: a fresh backing array is
allocated and filled with a copy of the group's ranges, then that array
(and only that array) is sorted in place. -/
def formatGroupM (st : Store) (g : dayGroupM) : Store × List Char :=
  let gRanges := readS st g.RangesRef
  if g.Closed || gRanges.length == 0 then
    (st, dayPartStrM g ++ ' ' :: "Closed".data)
  else
    let ref := st.length
    let st₁ := st ++ [gRanges]
    let st₂ := st₁.set ref ((readS st₁ ref).insertionSort trLe)
    (st₂, dayPartStrM g ++ ' ' ::
      joinSep ", ".data ((readS st₂ ref).map TimeRange.render))

/-- The function `Format` in the store model, threading the store through each
group's formatting. -/
def FormatM (st : Store) (ws : WeekScheduleM) (_debug : Bool) :
    Store × List Char :=
  let res := (groupConsecutiveDaysM st ws).foldl
    (fun (acc : Store × List (List Char)) g =>
      let (st', part) := formatGroupM acc.1 g
      (st', acc.2 ++ [part]))
    (st, [])
  (res.1, joinSep "; ".data res.2)

/-- The patterns that `normalizeText` eliminates or rewrites. -/
def canonicalPats : List (List Char) :=
  ["–".data, "—".data, "\t".data, "\r".data, "\n".data, "  ".data,
   "lunes".data, "martes".data, "miércoles".data, "miercoles".data,
   "jueves".data, "viernes".data, "sábado".data, "sabado".data,
   "domingo".data, "cerrado".data]

/-- Canonical form: none of the rewritten patterns occurs (no dashes,
no tab/CR/LF, no double space, no Spanish day name, no `cerrado`) and
every character is fixed by lowercasing. -/
def isCanonical (t : List Char) : Prop :=
  (∀ p ∈ canonicalPats, containsSub p t = false) ∧ ∀ c ∈ t, toLowerChar c = c

instance : DecidablePred isCanonical := fun t => by
  unfold isCanonical; infer_instance

/-- Spec §4.1 step 1: en- and em-dashes become plain hyphens. -/
def specDashStep (t : List Char) : List Char :=
  replaceAll "—".data "-".data (replaceAll "–".data "-".data t)

/-- Spec §4.1 step 2: tabs become one space, carriage returns vanish. -/
def specTabCrStep (t : List Char) : List Char :=
  replaceAll "\r".data "".data (replaceAll "\t".data " ".data t)

/-- Spec §4.1 step 3: runs of two or more spaces collapse to one. -/
def specCollapseStep (t : List Char) : List Char := collapseSpaces t

/-- Spec §4.1 step 4: newlines become one space. -/
def specNewlineStep (t : List Char) : List Char :=
  replaceAll "\n".data " ".data t

/-- Spec §4.1 step 5: the text is lowercased. -/
def specLowerStep (t : List Char) : List Char := toLowerStr t

/-- Spec §4.1 step 6: Spanish day names (accented and unaccented
forms) are substring-replaced by English day names. -/
def specDayStep (t : List Char) : List Char :=
  let t := replaceAll "lunes".data "monday".data t
  let t := replaceAll "martes".data "tuesday".data t
  let t := replaceAll "miércoles".data "wednesday".data t
  let t := replaceAll "miercoles".data "wednesday".data t
  let t := replaceAll "jueves".data "thursday".data t
  let t := replaceAll "viernes".data "friday".data t
  let t := replaceAll "sábado".data "saturday".data t
  let t := replaceAll "sabado".data "saturday".data t
  let t := replaceAll "domingo".data "sunday".data t
  t

/-- Spec §4.1 step 7: `cerrado` becomes `closed`. -/
def specCerradoStep (t : List Char) : List Char :=
  replaceAll "cerrado".data "closed".data t

/-- The Normalizer exactly as the spec words it: the seven
transformations composed in the spec's order. -/
def normalizeTextSpec (t : List Char) : List Char :=
  specCerradoStep (specDayStep (specLowerStep (specNewlineStep
    (specCollapseStep (specTabCrStep (specDashStep t))))))

/-- Zero-padded `HH:MM` form: five characters, a colon in the middle,
digits everywhere else. -/
def isHHMM (s : List Char) : Prop :=
  ∃ a b c d, s = [a, b, ':', c, d] ∧ isDigitChar a = true ∧
    isDigitChar b = true ∧ isDigitChar c = true ∧ isDigitChar d = true

/-- The strict version of `trLe`, used to identify sorted lists of
ranges with pairwise-distinct start times. -/
def trLtS (a b : TimeRange) : Prop := trLe a b ∧ a.Start ≠ b.Start

/-- Example week for the grouping counterexample: Monday and Tuesday
hold the same two ranges in opposite insertion order (tied start
times). -/
def wsC2 : WeekSchedule :=
  ⟨fun i =>
    if i = Monday then
      ⟨i, [⟨"09:00".data, "12:00".data⟩, ⟨"09:00".data, "17:00".data⟩], false⟩
    else if i = Tuesday then
      ⟨i, [⟨"09:00".data, "17:00".data⟩, ⟨"09:00".data, "12:00".data⟩], false⟩
    else ⟨i, [], true⟩⟩

/-- Example week for the amended grouping claim: Monday and Tuesday
hold the same two ranges (distinct start times) in opposite insertion
order. -/
def wsC2W : WeekSchedule :=
  ⟨fun i =>
    if i = Monday then
      ⟨i, [⟨"08:00".data, "12:00".data⟩, ⟨"09:00".data, "17:00".data⟩], false⟩
    else if i = Tuesday then
      ⟨i, [⟨"09:00".data, "17:00".data⟩, ⟨"08:00".data, "12:00".data⟩], false⟩
    else ⟨i, [], true⟩⟩

/-- Example week for the closed-flag grouping claim: Monday is open
with no ranges, Tuesday is closed with no ranges. -/
def wsC10 : WeekSchedule :=
  ⟨fun i =>
    if i = Monday then ⟨i, [], false⟩ else ⟨i, [], true⟩⟩

/-- Example store and week for the frame-property witness: one backing
array holding an unsorted two-range day shared by all days. -/
def stC9 : Store :=
  [[⟨"15:00".data, "18:00".data⟩, ⟨"08:00".data, "13:00".data⟩]]

def wsC9 : WeekScheduleM := ⟨fun i => ⟨i, 0, false⟩⟩

end Schedule

/-! Lemmas about the string primitives -/

namespace GoString

theorem firstIndex_cons_none {pat : List Char} {c : Char} {rest : List Char}
    (h : firstIndex pat (c :: rest) = none) :
    pat.isPrefixOf (c :: rest) = false ∧ firstIndex pat rest = none := by
  unfold firstIndex at h
  by_cases hp : pat.isPrefixOf (c :: rest)
  · simp [hp] at h
  · simp only [hp, if_false] at h ⊢
    exact ⟨by simp [hp], Option.map_eq_none'.mp h⟩

theorem containsSub_eq_false_iff {pat s : List Char} :
    containsSub pat s = false ↔ firstIndex pat s = none := by
  unfold containsSub
  cases firstIndex pat s <;> simp

/-- If the pattern occurs nowhere, `replaceAllGo` is the identity. -/
theorem replaceAllGo_of_not_contains (p : Char) (ps rep : List Char) :
    ∀ (fuel : Nat) (s : List Char),
      firstIndex (p :: ps) s = none → replaceAllGo p ps rep fuel s = s := by
  intro fuel
  induction fuel with
  | zero => intro s _; rfl
  | succ n ih =>
    intro s hs
    cases s with
    | nil => rfl
    | cons c rest =>
      obtain ⟨hpre, hrest⟩ := firstIndex_cons_none hs
      simp only [replaceAllGo, hpre, Bool.false_eq_true, if_false]
      rw [ih rest hrest]

/-- Go's `strings.ReplaceAll` leaves a string without the pattern unchanged. -/
theorem replaceAll_of_not_contains {pat : List Char} (rep : List Char)
    {s : List Char} (h : containsSub pat s = false) :
    replaceAll pat rep s = s := by
  cases pat with
  | nil => rfl
  | cons p ps =>
    exact replaceAllGo_of_not_contains p ps rep s.length s
      (containsSub_eq_false_iff.mp h)

/-- Space collapsing leaves a string without a double space unchanged. -/
theorem collapseSpaces_of_not_contains :
    ∀ {s : List Char}, containsSub [' ', ' '] s = false → collapseSpaces s = s := by
  intro s
  induction s with
  | nil => intro _; rfl
  | cons c rest ih =>
    intro h
    obtain ⟨hpre, hrest⟩ := firstIndex_cons_none (containsSub_eq_false_iff.mp h)
    cases rest with
    | nil => rfl
    | cons c₂ rest₂ =>
      have hne : ¬(c = ' ' ∧ c₂ = ' ') := by
        intro ⟨h1, h2⟩
        subst h1; subst h2
        simp [List.isPrefixOf] at hpre
      simp only [collapseSpaces, hne, if_false]
      rw [ih (containsSub_eq_false_iff.mpr hrest)]

/-- Lowercasing leaves a string of case-fixed characters unchanged. -/
theorem toLowerStr_of_fixed {s : List Char}
    (h : ∀ c ∈ s, toLowerChar c = c) : toLowerStr s = s := by
  induction s with
  | nil => rfl
  | cons c rest ih =>
    simp only [toLowerStr, List.map_cons]
    rw [h c (by simp)]
    have : toLowerStr rest = rest := ih (fun x hx => h x (by simp [hx]))
    simpa [toLowerStr] using this

/-- Every character of the output of `replaceAllGo` comes from the
replacement text or from the input. -/
theorem mem_replaceAllGo {p : Char} {ps rep : List Char} {c : Char} :
    ∀ {fuel : Nat} {s : List Char},
      c ∈ replaceAllGo p ps rep fuel s → c ∈ rep ∨ c ∈ s := by
  intro fuel
  induction fuel with
  | zero => intro s h; exact Or.inr h
  | succ n ih =>
    intro s h
    cases s with
    | nil => exact Or.inr h
    | cons a rest =>
      by_cases hpre : (p :: ps).isPrefixOf (a :: rest)
      · simp only [replaceAllGo, hpre, if_true] at h
        rcases List.mem_append.mp h with h' | h'
        · exact Or.inl h'
        · rcases ih h' with h'' | h''
          · exact Or.inl h''
          · exact Or.inr (List.mem_cons_of_mem a (List.mem_of_mem_drop h''))
      · simp only [replaceAllGo, hpre, Bool.false_eq_true, if_false] at h
        rcases List.mem_cons.mp h with h' | h'
        · exact Or.inr (h' ▸ List.mem_cons_self a rest)
        · rcases ih h' with h'' | h''
          · exact Or.inl h''
          · exact Or.inr (List.mem_cons_of_mem a h'')

theorem mem_replaceAll {pat rep s : List Char} {c : Char}
    (h : c ∈ replaceAll pat rep s) : c ∈ rep ∨ c ∈ s := by
  cases pat with
  | nil => exact Or.inr h
  | cons p ps => exact mem_replaceAllGo h

/-- Replacing every occurrence of a single character eliminates it
(provided the replacement does not reintroduce it). -/
theorem not_mem_replaceAllGo_single {d : Char} {rep : List Char}
    (hrep : d ∉ rep) :
    ∀ {fuel : Nat} {s : List Char}, s.length ≤ fuel →
      d ∉ replaceAllGo d [] rep fuel s := by
  intro fuel
  induction fuel with
  | zero =>
    intro s hs
    rw [Nat.le_zero, List.length_eq_zero] at hs
    subst hs; simp [replaceAllGo]
  | succ n ih =>
    intro s hs
    cases s with
    | nil => simp [replaceAllGo]
    | cons a rest =>
      simp only [List.length_cons, Nat.succ_le_succ_iff] at hs
      by_cases hd : d = a
      · have hpre : [d].isPrefixOf (a :: rest) = true := by
          simp [List.isPrefixOf, hd]
        simp only [replaceAllGo, hpre, if_true, List.drop_zero]
        intro hmem
        rcases List.mem_append.mp hmem with h' | h'
        · exact hrep h'
        · exact ih hs h'
      · have hpre : [d].isPrefixOf (a :: rest) = false := by
          simp [List.isPrefixOf]
          exact fun h => absurd (h ▸ rfl) hd
        simp only [replaceAllGo, hpre, Bool.false_eq_true, if_false]
        intro hmem
        rcases List.mem_cons.mp hmem with h' | h'
        · exact hd h'
        · exact ih hs h'

/-- Absence of a single-character pattern is just non-membership. -/
theorem firstIndex_single_none {d : Char} :
    ∀ {s : List Char}, d ∉ s → firstIndex [d] s = none := by
  intro s
  induction s with
  | nil => intro _; rfl
  | cons c rest ih =>
    intro h
    have hd : d ≠ c := fun he => h (he ▸ List.mem_cons_self c rest)
    have hpre : [d].isPrefixOf (c :: rest) = false := by
      simp [List.isPrefixOf]
      exact fun he => absurd (he ▸ rfl) hd
    unfold firstIndex
    simp only [hpre, Bool.false_eq_true, if_false]
    rw [ih (fun hm => h (List.mem_cons_of_mem c hm))]
    rfl

theorem not_mem_replaceAll_single {d : Char} {rep s : List Char}
    (hrep : d ∉ rep) : d ∉ replaceAll [d] rep s :=
  not_mem_replaceAllGo_single hrep (Nat.le_refl _)

end GoString

section NormalizerClaims

open GoString Schedule

/-- C1 (counterexample): the Normalizer is NOT idempotent on every
string.  `"a\n\nb"` normalizes to `"a  b"` — space collapsing runs
before newlines are turned into spaces, so the two newlines leave a
double space — and a second normalization collapses that double space
to `"a b"`. -/
theorem claim_C1_counterexample :
    normalizeText (normalizeText "a\n\nb".data false) false ≠
      normalizeText "a\n\nb".data false := by decide

/-- C1 (amended): every string already in canonical form — no
en/em-dash, no tab, no carriage return, no newline, no double space,
no Spanish day name, no `cerrado`, and only lowercase-fixed
characters — is a fixed point of `normalizeText`.  (Full idempotence
fails: outputs of the normalizer need not be canonical, see the
counterexample.) -/
theorem claim_C1_amended (t : List Char) (debug : Bool)
    (h : isCanonical t) : normalizeText t debug = t := by
  obtain ⟨hpat, hlow⟩ := h
  have hEn := replaceAll_of_not_contains "-".data
    (hpat "–".data (by simp [canonicalPats]))
  have hEm := replaceAll_of_not_contains "-".data
    (hpat "—".data (by simp [canonicalPats]))
  have hTab := replaceAll_of_not_contains " ".data
    (hpat "\t".data (by simp [canonicalPats]))
  have hCr := replaceAll_of_not_contains "".data
    (hpat "\r".data (by simp [canonicalPats]))
  have hNl := replaceAll_of_not_contains " ".data
    (hpat "\n".data (by simp [canonicalPats]))
  have hSp : collapseSpaces t = t :=
    collapseSpaces_of_not_contains (hpat "  ".data (by simp [canonicalPats]))
  have hLo : toLowerStr t = t := toLowerStr_of_fixed hlow
  have hLu := replaceAll_of_not_contains "monday".data
    (hpat "lunes".data (by simp [canonicalPats]))
  have hMa := replaceAll_of_not_contains "tuesday".data
    (hpat "martes".data (by simp [canonicalPats]))
  have hMi := replaceAll_of_not_contains "wednesday".data
    (hpat "miércoles".data (by simp [canonicalPats]))
  have hMi' := replaceAll_of_not_contains "wednesday".data
    (hpat "miercoles".data (by simp [canonicalPats]))
  have hJu := replaceAll_of_not_contains "thursday".data
    (hpat "jueves".data (by simp [canonicalPats]))
  have hVi := replaceAll_of_not_contains "friday".data
    (hpat "viernes".data (by simp [canonicalPats]))
  have hSa := replaceAll_of_not_contains "saturday".data
    (hpat "sábado".data (by simp [canonicalPats]))
  have hSa' := replaceAll_of_not_contains "saturday".data
    (hpat "sabado".data (by simp [canonicalPats]))
  have hDo := replaceAll_of_not_contains "sunday".data
    (hpat "domingo".data (by simp [canonicalPats]))
  have hCe := replaceAll_of_not_contains "closed".data
    (hpat "cerrado".data (by simp [canonicalPats]))
  simp only [normalizeText]
  rw [hEn, hEm, hEn, hEm, hTab, hCr, hSp, hNl, hLo,
     hLu, hMa, hMi, hMi', hJu, hVi, hSa, hSa', hDo, hCe]

/-- C1 (witness): a concrete canonical string is a fixed point. -/
theorem claim_C1_amended_witness :
    isCanonical "monday 08:00-13:00 tuesday closed".data ∧
      normalizeText "monday 08:00-13:00 tuesday closed".data false =
        "monday 08:00-13:00 tuesday closed".data :=
  ⟨by decide, claim_C1_amended _ false (by decide)⟩

/-- C3: for every input string, `normalizeText` equals the composition
of the spec's seven transformations in the spec's exact order
(dashes → hyphen; tab → space, CR removed; space runs collapsed;
newlines → space; lowercased; Spanish day names → English; `cerrado` →
`closed`).  The code applies the two dash replacements twice (once per
explicit code point); the second pass is the identity because the
first pass eliminated the dashes. -/
theorem claim_C3 (t : List Char) (debug : Bool) :
    normalizeText t debug = normalizeTextSpec t := by
  have hEnGone : ('–' : Char) ∉
      replaceAll "—".data "-".data (replaceAll "–".data "-".data t) := by
    intro hm
    rcases mem_replaceAll hm with h | h
    · simp at h
    · exact not_mem_replaceAll_single (by decide) h
  have hEmGone : ('—' : Char) ∉
      replaceAll "—".data "-".data (replaceAll "–".data "-".data t) :=
    not_mem_replaceAll_single (by decide)
  have hEn : replaceAll "–".data "-".data
      (replaceAll "—".data "-".data (replaceAll "–".data "-".data t)) =
      replaceAll "—".data "-".data (replaceAll "–".data "-".data t) :=
    replaceAll_of_not_contains _
      (containsSub_eq_false_iff.mpr (firstIndex_single_none hEnGone))
  have hEm : replaceAll "—".data "-".data
      (replaceAll "—".data "-".data (replaceAll "–".data "-".data t)) =
      replaceAll "—".data "-".data (replaceAll "–".data "-".data t) :=
    replaceAll_of_not_contains _
      (containsSub_eq_false_iff.mpr (firstIndex_single_none hEmGone))
  simp only [normalizeText, normalizeTextSpec, specCerradoStep, specDayStep,
    specLowerStep, specNewlineStep, specCollapseStep, specTabCrStep,
    specDashStep]
  rw [hEn, hEm]

end NormalizerClaims

/-! Lemmas about `firstIndex` and the parser plumbing -/

namespace GoString

/-- The first index really is an occurrence, and the earliest one. -/
theorem firstIndex_some {pat : List Char} :
    ∀ {s : List Char} {i : Nat}, firstIndex pat s = some i →
      pat.isPrefixOf (s.drop i) = true ∧
        ∀ j < i, pat.isPrefixOf (s.drop j) = false := by
  intro s
  induction s with
  | nil =>
    intro i h
    unfold firstIndex at h
    by_cases hp : pat.isPrefixOf []
    · simp only [hp, if_true, Option.some.injEq] at h
      subst h
      exact ⟨hp, by omega⟩
    · simp [hp] at h
  | cons c rest ih =>
    intro i h
    unfold firstIndex at h
    by_cases hp : pat.isPrefixOf (c :: rest)
    · simp only [hp, if_true, Option.some.injEq] at h
      subst h
      exact ⟨hp, by omega⟩
    · simp only [hp, Bool.false_eq_true, if_false] at h
      rcases Option.map_eq_some'.mp h with ⟨i', hi', rfl⟩
      obtain ⟨hocc, hmin⟩ := ih hi'
      refine ⟨hocc, ?_⟩
      intro j hj
      cases j with
      | zero =>
        rw [Bool.not_eq_true] at hp
        simpa using hp
      | succ j' => exact hmin j' (by omega)

/-- If the pattern never occurs then no position carries it. -/
theorem firstIndex_none {pat : List Char} :
    ∀ {s : List Char}, firstIndex pat s = none →
      ∀ j, pat.isPrefixOf (s.drop j) = false := by
  intro s
  induction s with
  | nil =>
    intro h j
    unfold firstIndex at h
    by_cases hp : pat.isPrefixOf []
    · simp [hp] at h
    · rw [Bool.not_eq_true] at hp
      simpa [List.drop_nil] using hp
  | cons c rest ih =>
    intro h j
    obtain ⟨hpre, hrest⟩ := firstIndex_cons_none h
    cases j with
    | zero => simpa using hpre
    | succ j' => exact ih hrest j'

/-- An occurrence at `j` forces a first occurrence at some `i ≤ j`. -/
theorem firstIndex_le_of_occurrence {pat s : List Char} {j : Nat}
    (h : pat.isPrefixOf (s.drop j) = true) :
    ∃ i ≤ j, firstIndex pat s = some i := by
  cases hfi : firstIndex pat s with
  | none => exact absurd h (by simp [firstIndex_none hfi j])
  | some i =>
    refine ⟨i, ?_, rfl⟩
    by_contra hlt
    exact absurd h (by simp [(firstIndex_some hfi).2 j (by omega)])

end GoString

namespace Schedule

open GoString

/-- Case analysis on one `nextDayStep`. -/
theorem nextDayStep_cases (day after : List Char) (acc : Nat) (o : List Char) :
    nextDayStep day after acc o = acc ∨
      (o ≠ day ∧ firstIndex o after = some (nextDayStep day after acc o) ∧
        nextDayStep day after acc o < acc) := by
  unfold nextDayStep
  by_cases ho : o ≠ day
  · rw [if_pos ho]
    cases hfi : firstIndex o after with
    | none => exact Or.inl rfl
    | some idx =>
      dsimp only
      by_cases hlt : idx < acc
      · rw [if_pos hlt]; exact Or.inr ⟨ho, rfl, hlt⟩
      · rw [if_neg hlt]; exact Or.inl rfl
  · rw [if_neg ho]; exact Or.inl rfl

theorem nextDayStep_le (day after : List Char) (acc : Nat) (o : List Char) :
    nextDayStep day after acc o ≤ acc := by
  rcases nextDayStep_cases day after acc o with h | ⟨_, _, h⟩
  · omega
  · omega

theorem nextDayStep_min (day after : List Char) (acc : Nat) {o : List Char}
    (ho : o ≠ day) {i : Nat} (hfi : firstIndex o after = some i) :
    nextDayStep day after acc o ≤ i := by
  unfold nextDayStep
  rw [if_pos ho, hfi]
  dsimp only
  by_cases hlt : i < acc
  · rw [if_pos hlt]
  · rw [if_neg hlt]; omega

/-- Specification of the `nextDayIdx` minimum scan over a day list. -/
theorem foldMin_spec (day after : List Char) :
    ∀ (l : List (List Char)) (acc : Nat),
      l.foldl (nextDayStep day after) acc ≤ acc ∧
      (l.foldl (nextDayStep day after) acc = acc ∨
        ∃ other ∈ l, other ≠ day ∧
          firstIndex other after = some (l.foldl (nextDayStep day after) acc)) ∧
      ∀ other ∈ l, other ≠ day → ∀ i, firstIndex other after = some i →
        l.foldl (nextDayStep day after) acc ≤ i := by
  intro l
  induction l with
  | nil => intro acc; exact ⟨Nat.le_refl _, Or.inl rfl, by simp⟩
  | cons o rest ih =>
    intro acc
    simp only [List.foldl_cons]
    obtain ⟨hle, horig, hmin⟩ := ih (nextDayStep day after acc o)
    have hstep := nextDayStep_le day after acc o
    refine ⟨by omega, ?_, ?_⟩
    · rcases horig with h | ⟨o', ho', hne, hfi'⟩
      · rcases nextDayStep_cases day after acc o with h' | ⟨hne, hfi, _⟩
        · exact Or.inl (by omega)
        · exact Or.inr ⟨o, List.mem_cons_self o rest, hne, by rw [h]; exact hfi⟩
      · exact Or.inr ⟨o', List.mem_cons_of_mem o ho', hne, hfi'⟩
    · intro other hmem hne i hfi'
      rcases List.mem_cons.mp hmem with rfl | hmem'
      · exact Nat.le_trans hle (nextDayStep_min day after acc hne hfi')
      · exact hmin other hmem' hne i hfi'

/-- Membership in the extracted day → ranges association list. -/
theorem mem_parseScheduleText {text : List Char} {debug : Bool}
    {e : List Char × List TimeRange}
    (h : e ∈ parseScheduleText text debug) :
    e.1 ∈ daysList ∧ processDay text e.1 = some e.2 := by
  unfold parseScheduleText at h
  rcases List.mem_filterMap.mp h with ⟨day, hday, hmap⟩
  rcases Option.map_eq_some'.mp hmap with ⟨rs, hrs, hpair⟩
  cases hpair
  exact ⟨hday, hrs⟩

/-- The keys of the extracted association list form a sublist of the
fixed day-name list. -/
theorem parseScheduleText_keys_sublist (text : List Char) (debug : Bool) :
    ((parseScheduleText text debug).map Prod.fst).Sublist daysList := by
  unfold parseScheduleText
  generalize daysList = l
  induction l with
  | nil => simp
  | cons d rest ih =>
    simp only [List.filterMap_cons]
    cases processDay text d with
    | none => exact ih.cons d
    | some rs => simpa using ih.cons₂ d

theorem parseScheduleText_keys_nodup (text : List Char) (debug : Bool) :
    ((parseScheduleText text debug).map Prod.fst).Nodup :=
  (by decide : daysList.Nodup).sublist (parseScheduleText_keys_sublist text debug)

/-- Looking up a missing key in a `filterMap`-built association list. -/
theorem lookup_filterMap_not_mem {l : List (List Char)}
    (f : List Char → Option (List TimeRange)) {k : List Char} (hk : k ∉ l) :
    List.lookup k (l.filterMap fun x => (f x).map (x, ·)) = none := by
  induction l with
  | nil => rfl
  | cons d rest ih =>
    have hkd : k ≠ d := fun he => hk (he ▸ List.mem_cons_self d rest)
    have hkrest : k ∉ rest := fun hm => hk (List.mem_cons_of_mem d hm)
    simp only [List.filterMap_cons]
    cases f d with
    | none => exact ih hkrest
    | some rs =>
      simp only [Option.map_some', List.lookup_cons]
      rw [show (k == d) = false from beq_eq_false_iff_ne.mpr hkd]
      exact ih hkrest

/-- Looking up a day in the extracted association list yields exactly
the per-day parse result. -/
theorem lookup_filterMap {l : List (List Char)}
    (f : List Char → Option (List TimeRange)) {k : List Char}
    (hnd : l.Nodup) (hk : k ∈ l) :
    List.lookup k (l.filterMap fun x => (f x).map (x, ·)) = f k := by
  induction l with
  | nil => cases hk
  | cons d rest ih =>
    rcases List.nodup_cons.mp hnd with ⟨hd, hnd'⟩
    simp only [List.filterMap_cons]
    by_cases hkd : k = d
    · subst hkd
      cases hf : f k with
      | none => exact lookup_filterMap_not_mem f hd
      | some rs =>
        simp only [Option.map_some', List.lookup_cons]
        rw [show (k == k) = true from beq_self_eq_true k]
    · have hk' : k ∈ rest := by
        rcases List.mem_cons.mp hk with h | h
        · exact absurd h hkd
        · exact h
      cases f d with
      | none => exact ih hnd' hk'
      | some rs =>
        simp only [Option.map_some', List.lookup_cons]
        rw [show (k == d) = false from beq_eq_false_iff_ne.mpr hkd]
        exact ih hnd' hk'

/-- Day names map to distinct ordinals. -/
theorem dayNameToNumber_injOn :
    ∀ k₁ ∈ daysList, ∀ k₂ ∈ daysList, k₁ ≠ k₂ →
      dayNameToNumber k₁ ≠ dayNameToNumber k₂ := by decide

/-- Unfolding one step of `populateWeek`. -/
theorem populateWeek_cons (w : WeekSchedule) (e : List Char × List TimeRange)
    (rest : List (List Char × List TimeRange)) :
    populateWeek w (e :: rest) =
      populateWeek
        (match dayNameToNumber e.1 with
         | some dayNum => setDay w dayNum ⟨dayNum, e.2, e.2.length == 0⟩
         | none => w)
        rest := rfl

/-- The loop `populateWeek` never touches a day none of whose entries name. -/
theorem populateWeek_untouched :
    ∀ {entries : List (List Char × List TimeRange)} (w : WeekSchedule)
      {dn : DayOfWeek},
      (∀ e ∈ entries, dayNameToNumber e.1 ≠ some dn) →
      (populateWeek w entries).Days dn = w.Days dn := by
  intro entries
  induction entries with
  | nil => intro w dn _; rfl
  | cons e rest ih =>
    intro w dn h
    rw [populateWeek_cons]
    cases hg : dayNameToNumber e.1 with
    | none =>
      exact ih w (fun e' he' => h e' (List.mem_cons_of_mem e he'))
    | some dn' =>
      have hne : dn' ≠ dn := fun he =>
        h e (List.mem_cons_self e rest) (he ▸ hg)
      show (populateWeek (setDay w dn' _) rest).Days dn = w.Days dn
      rw [ih (setDay w dn' _) (fun e' he' => h e' (List.mem_cons_of_mem e he'))]
      simp only [setDay]
      exact if_neg (fun h' : dn = dn' => hne h'.symm)

/-- The loop `populateWeek` writes the unique entry of a given day verbatim. -/
theorem populateWeek_set :
    ∀ {entries : List (List Char × List TimeRange)} (w : WeekSchedule)
      {day : List Char} {dn : DayOfWeek} {rs : List TimeRange},
      dayNameToNumber day = some dn →
      (day, rs) ∈ entries →
      (∀ e ∈ entries, e.1 ≠ day → dayNameToNumber e.1 ≠ some dn) →
      (entries.map Prod.fst).Nodup →
      (populateWeek w entries).Days dn = ⟨dn, rs, rs.length == 0⟩ := by
  intro entries
  induction entries with
  | nil => intro w day dn rs _ hmem _ _; cases hmem
  | cons e rest ih =>
    intro w day dn rs hdn hmem hother hnd
    rw [List.map_cons] at hnd
    rcases List.nodup_cons.mp hnd with ⟨hknotin, hnd'⟩
    rw [populateWeek_cons]
    by_cases hkey : e.1 = day
    · have hers : e = (day, rs) := by
        rcases List.mem_cons.mp hmem with h | h
        · exact h.symm
        · exact absurd (hkey ▸ List.mem_map_of_mem Prod.fst h) hknotin
      subst hers
      dsimp only at hknotin ⊢
      rw [hdn]
      have huntouched : ∀ e' ∈ rest, dayNameToNumber e'.1 ≠ some dn := by
        intro e' he'
        have hne : e'.1 ≠ day := fun he =>
          hknotin (he ▸ List.mem_map_of_mem Prod.fst he')
        exact hother e' (List.mem_cons_of_mem _ he') hne
      show (populateWeek (setDay w dn _) rest).Days dn = _
      rw [populateWeek_untouched _ huntouched]
      simp [setDay]
    · have hmem' : (day, rs) ∈ rest := by
        rcases List.mem_cons.mp hmem with h | h
        · exact absurd (congrArg Prod.fst h.symm) hkey
        · exact h
      have hother' : ∀ e' ∈ rest, e'.1 ≠ day → dayNameToNumber e'.1 ≠ some dn :=
        fun e' he' => hother e' (List.mem_cons_of_mem _ he')
      cases hg : dayNameToNumber e.1 with
      | none =>
        exact ih w hdn hmem' hother' hnd'
      | some dn' =>
        show (populateWeek (setDay w dn' _) rest).Days dn = _
        exact ih (setDay w dn' _) hdn hmem' hother' hnd'

/-- The closed-iff-empty invariant is preserved by population. -/
theorem populateWeek_closed_iff :
    ∀ {entries : List (List Char × List TimeRange)} (w : WeekSchedule),
      (∀ i, ((w.Days i).Closed = true ↔ (w.Days i).Ranges = [])) →
      ∀ i, (((populateWeek w entries).Days i).Closed = true ↔
        ((populateWeek w entries).Days i).Ranges = []) := by
  intro entries
  induction entries with
  | nil => intro w h i; exact h i
  | cons e rest ih =>
    intro w h i
    rw [populateWeek_cons]
    cases dayNameToNumber e.1 with
    | none => exact ih w h i
    | some dn =>
      show ((populateWeek (setDay w dn _) rest).Days i).Closed = true ↔ _
      refine ih (setDay w dn _) ?_ i
      intro j
      simp only [setDay]
      by_cases hj : j = dn
      · rw [if_pos hj]
        simp [List.length_eq_zero]
      · rw [if_neg hj]
        exact h j

end Schedule

section ParserClaims

open GoString Schedule

/-- C5: for every input string and debug flag, each day of the parsed
week has `Closed = true` exactly when its range list is empty (the
initialization makes all days closed-and-empty, and every population
step stores `Closed := len(ranges) == 0` alongside the ranges). -/
theorem claim_C5 (s : List Char) (debug : Bool) (i : Fin 7) :
    ((Parse s debug).Days i).Closed = true ↔
      ((Parse s debug).Days i).Ranges = [] := by
  unfold Parse
  exact populateWeek_closed_iff initWeek (fun _ => by simp [initWeek]) i

/-- C6: a day whose English name does not occur in the canonical
(normalized) text stays in the default-closed state: `Closed = true`
and no ranges.  `Parse` is total by construction (its Go `error` result
is always `nil`). -/
theorem claim_C6 (s : List Char) (debug : Bool) (name : List Char)
    (dn : DayOfWeek) (hmem : name ∈ daysList)
    (hdn : dayNameToNumber name = some dn)
    (habs : containsSub name (normalizeText s debug) = false) :
    (Parse s debug).Days dn = ⟨dn, [], true⟩ := by
  unfold Parse
  rw [populateWeek_untouched]
  · rfl
  · intro e he hedn
    obtain ⟨hkey, hproc⟩ := mem_parseScheduleText he
    by_cases hk : e.1 = name
    · rw [hk] at hproc
      unfold processDay at hproc
      rw [containsSub_eq_false_iff.mp habs] at hproc
      cases hproc
    · exact dayNameToNumber_injOn e.1 hkey name hmem hk (hedn.trans hdn.symm)

/-- C6 (witness): the empty input leaves Monday default-closed. -/
theorem claim_C6_witness :
    containsSub "monday".data (normalizeText "".data false) = false ∧
      (Parse "".data false).Days Monday = ⟨Monday, [], true⟩ :=
  ⟨by decide,
    claim_C6 "".data false "monday".data Monday (by decide) (by decide)
      (by decide)⟩

/-! Shape of matched intervals and `normalizeTime` -/

namespace Schedule

open GoString

theorem isDigitChar_ne_colon {c : Char} (h : isDigitChar c = true) :
    c ≠ ':' := fun he => absurd (he ▸ h) (by decide)

/-- A matched hour group is one or two digit characters. -/
theorem matchHourColon_shape {s h r : List Char}
    (hm : matchHourColon s = some (h, r)) :
    (h.length = 1 ∨ h.length = 2) ∧ ∀ c ∈ h, isDigitChar c = true := by
  unfold matchHourColon at hm
  cases s with
  | nil => cases hm
  | cons a s' =>
    cases s' with
    | nil => cases hm
    | cons b rest =>
      dsimp only at hm
      by_cases hab : (isDigitChar a && isDigitChar b) = true
      · rw [if_pos hab] at hm
        rcases Bool.and_eq_true_iff.mp hab with ⟨ha, hb⟩
        split at hm
        · cases hm
          refine ⟨Or.inr rfl, ?_⟩
          intro c hc
          rcases List.mem_cons.mp hc with rfl | hc'
          · exact ha
          · rcases List.mem_cons.mp hc' with rfl | hc''
            · exact hb
            · cases hc''
        · cases hm
      · rw [if_neg hab] at hm
        by_cases hab' : (isDigitChar a && decide (b = ':')) = true
        · rw [if_pos hab'] at hm
          rcases Bool.and_eq_true_iff.mp hab' with ⟨ha, _⟩
          cases hm
          refine ⟨Or.inl rfl, ?_⟩
          intro c hc
          rcases List.mem_cons.mp hc with rfl | hc'
          · exact ha
          · cases hc'
        · rw [if_neg hab'] at hm
          cases hm

/-- A matched minute group is exactly two digit characters. -/
theorem matchTwoDigits_shape {s m r : List Char}
    (hm : matchTwoDigits s = some (m, r)) :
    m.length = 2 ∧ ∀ c ∈ m, isDigitChar c = true := by
  unfold matchTwoDigits at hm
  cases s with
  | nil => cases hm
  | cons a s' =>
    cases s' with
    | nil => cases hm
    | cons b rest =>
      dsimp only at hm
      by_cases hab : (isDigitChar a && isDigitChar b) = true
      · rw [if_pos hab] at hm
        rcases Bool.and_eq_true_iff.mp hab with ⟨ha, hb⟩
        cases hm
        refine ⟨rfl, ?_⟩
        intro c hc
        rcases List.mem_cons.mp hc with rfl | hc'
        · exact ha
        · rcases List.mem_cons.mp hc' with rfl | hc''
          · exact hb
          · cases hc''
      · rw [if_neg hab] at hm
        cases hm

/-- Both captured groups of a matched interval are `H:MM` or `HH:MM`
shaped: digits, a colon, two digits. -/
theorem matchTimePair_shape {s g₁ g₂ r : List Char}
    (hm : matchTimePair s = some (g₁, g₂, r)) :
    (∃ h m, g₁ = h ++ ':' :: m ∧ (h.length = 1 ∨ h.length = 2) ∧
      m.length = 2 ∧ (∀ c ∈ h, isDigitChar c = true) ∧
      (∀ c ∈ m, isDigitChar c = true)) ∧
    (∃ h m, g₂ = h ++ ':' :: m ∧ (h.length = 1 ∨ h.length = 2) ∧
      m.length = 2 ∧ (∀ c ∈ h, isDigitChar c = true) ∧
      (∀ c ∈ m, isDigitChar c = true)) := by
  unfold matchTimePair at hm
  cases hc₁ : matchHourColon s with
  | none => rw [hc₁] at hm; cases hm
  | some p₁ =>
    obtain ⟨h₁, r₁⟩ := p₁
    rw [hc₁] at hm
    dsimp only at hm
    cases hc₂ : matchTwoDigits r₁ with
    | none => rw [hc₂] at hm; cases hm
    | some p₂ =>
      obtain ⟨m₁, r₂⟩ := p₂
      rw [hc₂] at hm
      dsimp only at hm
      split at hm
      · rename_i r₃ heq
        cases hc₃ : matchHourColon (r₃.dropWhile isSpaceChar) with
        | none => rw [hc₃] at hm; cases hm
        | some p₃ =>
          obtain ⟨h₂, r₅⟩ := p₃
          rw [hc₃] at hm
          dsimp only at hm
          cases hc₄ : matchTwoDigits r₅ with
          | none => rw [hc₄] at hm; cases hm
          | some p₄ =>
            obtain ⟨m₂, r₆⟩ := p₄
            rw [hc₄] at hm
            dsimp only at hm
            cases hm
            obtain ⟨hl₁, hd₁⟩ := matchHourColon_shape hc₁
            obtain ⟨hl₂, hd₂⟩ := matchTwoDigits_shape hc₂
            obtain ⟨hl₃, hd₃⟩ := matchHourColon_shape hc₃
            obtain ⟨hl₄, hd₄⟩ := matchTwoDigits_shape hc₄
            exact ⟨⟨_, _, rfl, hl₁, hl₂, hd₁, hd₂⟩,
                   ⟨_, _, rfl, hl₃, hl₄, hd₃, hd₄⟩⟩
      · cases hm

/-- Every match emitted by the interval scan has `H:MM`-shaped groups. -/
theorem findTimesGo_shape {g : List Char × List Char} :
    ∀ {fuel : Nat} {s : List Char}, g ∈ findTimesGo fuel s →
      (∃ h m, g.1 = h ++ ':' :: m ∧ (h.length = 1 ∨ h.length = 2) ∧
        m.length = 2 ∧ (∀ c ∈ h, isDigitChar c = true) ∧
        (∀ c ∈ m, isDigitChar c = true)) ∧
      (∃ h m, g.2 = h ++ ':' :: m ∧ (h.length = 1 ∨ h.length = 2) ∧
        m.length = 2 ∧ (∀ c ∈ h, isDigitChar c = true) ∧
        (∀ c ∈ m, isDigitChar c = true)) := by
  intro fuel
  induction fuel with
  | zero => intro s h; cases h
  | succ n ih =>
    intro s h
    cases s with
    | nil => cases h
    | cons c rest =>
      revert h
      show g ∈ (match matchTimePair (c :: rest) with
        | some (g₁, g₂, r) => (g₁, g₂) :: findTimesGo n r
        | none => findTimesGo n rest) → _
      split
      · rename_i g₁ g₂ r hmp
        intro h
        rcases List.mem_cons.mp h with rfl | h'
        · exact matchTimePair_shape hmp
        · exact ih h'
      · intro h
        exact ih h

/-- Splitting a separator-free string. -/
theorem splitOnChar_not_mem {sep : Char} :
    ∀ {m : List Char}, sep ∉ m → splitOnChar sep m = [m] := by
  intro m
  induction m with
  | nil => intro _; rfl
  | cons c rest ih =>
    intro h
    have hc : c ≠ sep := fun he => h (he ▸ List.mem_cons_self c rest)
    have hrest : sep ∉ rest := fun hm => h (List.mem_cons_of_mem c hm)
    unfold splitOnChar
    rw [if_neg hc, ih hrest]

/-- Unfolding `splitOnChar` at a non-separator head. -/
theorem splitOnChar_cons_ne (sep c : Char) (rest : List Char) (h : c ≠ sep) :
    splitOnChar sep (c :: rest) =
      match splitOnChar sep rest with
      | [] => [[c]]
      | x :: xs => (c :: x) :: xs := by
  conv_lhs => unfold splitOnChar
  rw [if_neg h]

/-- Splitting around the first separator. -/
theorem splitOnChar_append {sep : Char} :
    ∀ {h : List Char} (m : List Char), sep ∉ h →
      splitOnChar sep (h ++ sep :: m) = h :: splitOnChar sep m := by
  intro h
  induction h with
  | nil => intro m _; simp [splitOnChar]
  | cons a h' ih =>
    intro m hsep
    have ha : a ≠ sep := fun he => hsep (he ▸ List.mem_cons_self a h')
    have hh' : sep ∉ h' := fun hm => hsep (List.mem_cons_of_mem a hm)
    show splitOnChar sep (a :: (h' ++ sep :: m)) = (a :: h') :: splitOnChar sep m
    rw [splitOnChar_cons_ne sep a _ ha, ih m hh']

/-- The function `normalizeTime` on an `H:MM`-shaped string: the hour is zero-padded
to two digits when it has one, and the minutes pass through. -/
theorem normalizeTime_pad {h m : List Char}
    (hh : ':' ∉ h) (hm : ':' ∉ m) :
    normalizeTime (h ++ ':' :: m) =
      (if h.length = 1 then '0' :: h else h) ++ ':' :: m := by
  unfold normalizeTime
  rw [splitOnChar_append m hh, splitOnChar_not_mem hm]

/-- A matched group, once normalized, is in `HH:MM` form. -/
theorem isHHMM_normalizeTime {g h m : List Char}
    (hg : g = h ++ ':' :: m) (hl : h.length = 1 ∨ h.length = 2)
    (hml : m.length = 2) (hd : ∀ c ∈ h, isDigitChar c = true)
    (hmd : ∀ c ∈ m, isDigitChar c = true) :
    isHHMM (normalizeTime g) := by
  subst hg
  have hcolh : ':' ∉ h := fun hc => isDigitChar_ne_colon (hd ':' hc) rfl
  have hcolm : ':' ∉ m := fun hc => isDigitChar_ne_colon (hmd ':' hc) rfl
  rw [normalizeTime_pad hcolh hcolm]
  rcases List.length_eq_two.mp hml with ⟨c, d, rfl⟩
  rcases hl with h1 | h2
  · rcases List.length_eq_one.mp h1 with ⟨a, rfl⟩
    rw [if_pos (by simp : ([a] : List Char).length = 1)]
    exact ⟨'0', a, c, d, rfl, by decide, hd a (by simp),
      hmd c (by simp), hmd d (by simp)⟩
  · rcases List.length_eq_two.mp h2 with ⟨a, b, rfl⟩
    rw [if_neg (by simp)]
    exact ⟨a, b, c, d, rfl, hd a (by simp), hd b (by simp),
      hmd c (by simp), hmd d (by simp)⟩

/-- Every range stored by `processDay` has both endpoints in `HH:MM`
form. -/
theorem processDay_ranges_isHHMM {text day : List Char} {rs : List TimeRange}
    (hp : processDay text day = some rs) :
    ∀ tr ∈ rs, isHHMM tr.Start ∧ isHHMM tr.End := by
  unfold processDay at hp
  cases hfi : firstIndex day text with
  | none => rw [hfi] at hp; cases hp
  | some dayIdx =>
    rw [hfi] at hp
    dsimp only at hp
    split at hp
    · cases hp
      intro tr htr
      cases htr
    · split at hp
      · cases hp
      · cases hp
        intro tr htr
        rcases List.mem_map.mp htr with ⟨g, hg, rfl⟩
        obtain ⟨⟨h₁, m₁, hg₁, hl₁, hml₁, hd₁, hmd₁⟩,
                ⟨h₂, m₂, hg₂, hl₂, hml₂, hd₂, hmd₂⟩⟩ :=
          findTimesGo_shape (by simpa [findTimes] using hg)
        exact ⟨isHHMM_normalizeTime hg₁ hl₁ hml₁ hd₁ hmd₁,
               isHHMM_normalizeTime hg₂ hl₂ hml₂ hd₂ hmd₂⟩

/-- Ranges of any populated week come from the initial week or from
some entry. -/
theorem populateWeek_ranges_sub :
    ∀ {entries : List (List Char × List TimeRange)} (w : WeekSchedule)
      (i : Fin 7),
      ((populateWeek w entries).Days i).Ranges = (w.Days i).Ranges ∨
        ∃ e ∈ entries, ((populateWeek w entries).Days i).Ranges = e.2 := by
  intro entries
  induction entries with
  | nil => intro w i; exact Or.inl rfl
  | cons e rest ih =>
    intro w i
    rw [populateWeek_cons]
    cases hg : dayNameToNumber e.1 with
    | none =>
      rcases ih w i with h | ⟨e', he', h⟩
      · exact Or.inl h
      · exact Or.inr ⟨e', List.mem_cons_of_mem e he', h⟩
    | some dn =>
      rcases ih (setDay w dn ⟨dn, e.2, e.2.length == 0⟩) i with h | ⟨e', he', h⟩
      · by_cases hi : i = dn
        · refine Or.inr ⟨e, List.mem_cons_self e rest, ?_⟩
          rw [h]
          simp [setDay, hi]
        · refine Or.inl ?_
          rw [h]
          simp [setDay, hi]
      · exact Or.inr ⟨e', List.mem_cons_of_mem e he', h⟩

end Schedule

section ZeroPadClaim

open GoString Schedule

/-- C7: every `TimeRange` produced by `Parse` has `Start` and `End` in
zero-padded `HH:MM` form (exactly five characters: two digits, a
colon, two digits); and `normalizeTime` prepends a leading zero to a
single-digit hour while passing minutes through unchanged. -/
theorem claim_C7 :
    (∀ (s : List Char) (debug : Bool) (i : Fin 7),
      ∀ tr ∈ ((Parse s debug).Days i).Ranges,
        isHHMM tr.Start ∧ isHHMM tr.End) ∧
    (∀ h m : List Char, ':' ∉ h → ':' ∉ m →
      normalizeTime (h ++ ':' :: m) =
        (if h.length = 1 then '0' :: h else h) ++ ':' :: m) := by
  constructor
  · intro s debug i tr htr
    unfold Parse at htr
    rcases populateWeek_ranges_sub initWeek i with h | ⟨e, he, h⟩
    · rw [h] at htr
      cases htr
    · rw [h] at htr
      obtain ⟨_, hproc⟩ := mem_parseScheduleText he
      exact processDay_ranges_isHHMM hproc tr htr
  · intro h m hh hm
    exact normalizeTime_pad hh hm

/-- C7 (witness): the parsed single-digit-hour range `8:00-13:00` is
stored as `08:00`/`13:00`, in `HH:MM` form. -/
theorem claim_C7_witness :
    (⟨"08:00".data, "13:00".data⟩ : TimeRange) ∈
        ((Parse "monday 8:00-13:00".data false).Days Monday).Ranges ∧
      isHHMM ("08:00".data) ∧ isHHMM ("13:00".data) ∧
      (':' ∉ "8".data) ∧ (':' ∉ "00".data) ∧
      normalizeTime ("8".data ++ ':' :: "00".data) =
        (if ("8".data : List Char).length = 1 then '0' :: "8".data
          else "8".data) ++ ':' :: "00".data :=
  ⟨by decide,
    (claim_C7.1 "monday 8:00-13:00".data false Monday
      ⟨"08:00".data, "13:00".data⟩ (by decide)).1,
    (claim_C7.1 "monday 8:00-13:00".data false Monday
      ⟨"08:00".data, "13:00".data⟩ (by decide)).2,
    by decide, by decide,
    claim_C7.2 "8".data "00".data (by decide) (by decide)⟩

end ZeroPadClaim

section WindowClaim

open GoString Schedule

/-- C4: when a day name occurs in the canonical text, its content
window is the text after the first occurrence of the name up to the
nearest following occurrence of any other day name (window end =
window length when none follows, and no other day name starts anywhere
before the window end); and if the (trimmed) window contains `closed`,
the day is recorded with an empty range list and `Closed = true` —
regardless of any interval-shaped text also present in the window. -/
theorem claim_C4 (text day : List Char) (hday : day ∈ daysList) (i : Nat)
    (hfind : firstIndex day text = some i) :
    (∀ j < nextDayIndex day (text.drop (i + day.length)),
      ∀ other ∈ daysList, other ≠ day →
        other.isPrefixOf ((text.drop (i + day.length)).drop j) = false) ∧
    (nextDayIndex day (text.drop (i + day.length)) =
        (text.drop (i + day.length)).length ∨
      ∃ other ∈ daysList, other ≠ day ∧
        other.isPrefixOf ((text.drop (i + day.length)).drop
          (nextDayIndex day (text.drop (i + day.length)))) = true) ∧
    (containsSub "closed".data
        (trimSpace ((text.drop (i + day.length)).take
          (nextDayIndex day (text.drop (i + day.length))))) = true →
      List.lookup day (parseScheduleText text false) = some [] ∧
      ∀ dn, dayNameToNumber day = some dn →
        (populateWeek initWeek (parseScheduleText text false)).Days dn =
          ⟨dn, [], true⟩) := by
  obtain ⟨hle, horig, hmin⟩ :=
    foldMin_spec day (text.drop (i + day.length)) daysList
      (text.drop (i + day.length)).length
  refine ⟨?_, ?_, ?_⟩
  · intro j hj other hmem hne
    cases hb : other.isPrefixOf ((text.drop (i + day.length)).drop j) with
    | false => rfl
    | true =>
      exfalso
      obtain ⟨i₀, hi₀j, hfi₀⟩ := firstIndex_le_of_occurrence hb
      have := hmin other hmem hne i₀ hfi₀
      have hnj : nextDayIndex day (text.drop (i + day.length)) ≤ i₀ := this
      unfold nextDayIndex at hj
      omega
  · rcases horig with h | ⟨other, hmem, hne, hfi⟩
    · exact Or.inl h
    · exact Or.inr ⟨other, hmem, hne, (firstIndex_some hfi).1⟩
  · intro hclosed
    have hproc : processDay text day = some [] := by
      unfold processDay
      rw [hfind]
      dsimp only
      rw [if_pos hclosed]
    constructor
    · unfold parseScheduleText
      rw [lookup_filterMap (processDay text) (by decide) hday, hproc]
    · intro dn hdn
      have hm : (day, ([] : List TimeRange)) ∈ parseScheduleText text false := by
        unfold parseScheduleText
        exact List.mem_filterMap.mpr ⟨day, hday, by rw [hproc]; rfl⟩
      have hoth : ∀ e ∈ parseScheduleText text false, e.1 ≠ day →
          dayNameToNumber e.1 ≠ some dn := by
        intro e he hne
        obtain ⟨hkey, _⟩ := mem_parseScheduleText he
        intro habs
        exact dayNameToNumber_injOn e.1 hkey day hday hne
          (habs.trans hdn.symm)
      exact populateWeek_set initWeek hdn hm hoth
        (parseScheduleText_keys_nodup text false)

/-- C4 (witness): `"monday closed tuesday 8:00-13:00"` — Monday's
window contains `closed`, so Monday is recorded closed. -/
theorem claim_C4_witness :
    "monday".data ∈ daysList ∧
    firstIndex "monday".data "monday closed tuesday 8:00-13:00".data = some 0 ∧
    containsSub "closed".data
      (trimSpace (("monday closed tuesday 8:00-13:00".data.drop
        (0 + "monday".data.length)).take
        (nextDayIndex "monday".data
          ("monday closed tuesday 8:00-13:00".data.drop
            (0 + "monday".data.length))))) = true ∧
    List.lookup "monday".data
      (parseScheduleText "monday closed tuesday 8:00-13:00".data false) =
      some [] ∧
    (populateWeek initWeek
      (parseScheduleText "monday closed tuesday 8:00-13:00".data false)).Days
        Monday = ⟨Monday, [], true⟩ :=
  ⟨by decide, by decide, by decide,
    ((claim_C4 "monday closed tuesday 8:00-13:00".data "monday".data
      (by decide) 0 (by decide)).2.2 (by decide)).1,
    ((claim_C4 "monday closed tuesday 8:00-13:00".data "monday".data
      (by decide) 0 (by decide)).2.2 (by decide)).2 Monday (by decide)⟩

end WindowClaim

end ParserClaims

/-! Lemmas about the grouping pass -/

namespace Schedule

open GoString

/-- The function `schedulesEqual` is equality of the compared payload. -/
theorem schedulesEqual_iff {a b : DaySchedule} :
    schedulesEqual a b = true ↔ a.Closed = b.Closed ∧ a.Ranges = b.Ranges := by
  unfold schedulesEqual
  rw [Bool.and_eq_true_iff, beq_iff_eq, beq_iff_eq]

theorem schedulesEqual_refl (a : DaySchedule) : schedulesEqual a a = true :=
  schedulesEqual_iff.mpr ⟨rfl, rfl⟩

theorem dIdx_lt (d : DayOfWeek) : dIdx d < 7 := by
  revert d; decide

theorem dIdx_dispDay : ∀ n, n < 7 → dIdx (dispDay n) = n := by decide

theorem dispDay_dIdx : ∀ d : DayOfWeek, dispDay (dIdx d) = d := by decide

theorem displayOrder_drop_cons :
    ∀ n, n < 7 → displayOrder.drop n = dispDay n :: displayOrder.drop (n + 1) := by
  decide

theorem displayOrder_drop_ne_nil : ∀ n, n < 7 → displayOrder.drop n ≠ [] := by
  decide

theorem schedAtPos_dIdx (ws : WeekSchedule) (d : DayOfWeek) :
    schedAtPos ws (dIdx d) = ws.Days d := by
  unfold schedAtPos
  rw [dispDay_dIdx]

/-- The strong specification of the grouping loop: every emitted group
spans display positions whose adjacent schedules are all equal, carries
the payload of every position it covers, and lies within bounds; and
every remaining position is covered by some emitted group. -/
theorem groupAux_spec (ws : WeekSchedule) :
    ∀ (l : List DayOfWeek) (cur : DaySchedule) (start last : DayOfWeek),
      (∀ q, dIdx start ≤ q → q ≤ dIdx last →
        schedulesEqual cur (schedAtPos ws q) = true) →
      dIdx start ≤ dIdx last →
      l = displayOrder.drop (dIdx last + 1) →
      (∀ g ∈ groupAux ws cur start last l,
        (∀ q, dIdx g.StartDay ≤ q → q < dIdx g.EndDay →
          schedulesEqual (schedAtPos ws q) (schedAtPos ws (q + 1)) = true) ∧
        (∀ q, dIdx g.StartDay ≤ q → q ≤ dIdx g.EndDay →
          g.Ranges = (schedAtPos ws q).Ranges ∧
            g.Closed = (schedAtPos ws q).Closed) ∧
        dIdx start ≤ dIdx g.StartDay ∧ dIdx g.StartDay ≤ dIdx g.EndDay ∧
          dIdx g.EndDay ≤ 6) ∧
      (∀ q, dIdx start ≤ q → q ≤ 6 →
        ∃ g ∈ groupAux ws cur start last l, coversPos g q) := by
  intro l
  induction l with
  | nil =>
    intro cur start last hinv hsl hl
    have hlast6 : dIdx last = 6 := by
      have h7 := dIdx_lt last
      by_contra hne
      exact displayOrder_drop_ne_nil (dIdx last + 1) (by omega) hl.symm
    have hpair : ∀ q, dIdx start ≤ q → q < dIdx last →
        schedulesEqual (schedAtPos ws q) (schedAtPos ws (q + 1)) = true := by
      intro q h1 h2
      have e1 := schedulesEqual_iff.mp (hinv q h1 (by omega))
      have e2 := schedulesEqual_iff.mp (hinv (q + 1) (by omega) (by omega))
      exact schedulesEqual_iff.mpr
        ⟨e1.1.symm.trans e2.1, e1.2.symm.trans e2.2⟩
    have hpay : ∀ q, dIdx start ≤ q → q ≤ dIdx last →
        cur.Ranges = (schedAtPos ws q).Ranges ∧
          cur.Closed = (schedAtPos ws q).Closed := by
      intro q h1 h2
      have e := schedulesEqual_iff.mp (hinv q h1 h2)
      exact ⟨e.2, e.1⟩
    constructor
    · intro g hg
      rcases List.mem_singleton.mp hg with rfl
      exact ⟨hpair, hpay, Nat.le_refl _, hsl, show dIdx last ≤ 6 from hlast6.le⟩
    · intro q h1 h2
      refine ⟨⟨start, last, cur.Ranges, cur.Closed⟩, List.mem_singleton.mpr rfl,
        h1, ?_⟩
      show q ≤ dIdx last
      omega
  | cons d rest ih =>
    intro cur start last hinv hsl hl
    have h7 : dIdx last + 1 < 7 := by
      by_contra hge
      have hnil : displayOrder.drop (dIdx last + 1) = [] :=
        List.drop_eq_nil_of_le (by simp [displayOrder]; omega)
      rw [← hl] at hnil
      cases hnil
    have hcons := displayOrder_drop_cons (dIdx last + 1) h7
    rw [hcons] at hl
    injection hl with hde hre
    subst hde
    subst hre
    have hd : dIdx (dispDay (dIdx last + 1)) = dIdx last + 1 :=
      dIdx_dispDay (dIdx last + 1) h7
    show _ ∧ _
    unfold groupAux
    by_cases heq : schedulesEqual cur (ws.Days (dispDay (dIdx last + 1))) = true
    · rw [if_pos heq]
      have hinv' : ∀ q, dIdx start ≤ q → q ≤ dIdx (dispDay (dIdx last + 1)) →
          schedulesEqual cur (schedAtPos ws q) = true := by
        intro q h1 h2
        rw [hd] at h2
        rcases Nat.lt_or_ge q (dIdx last + 1) with hlt | hge
        · exact hinv q h1 (by omega)
        · have hq : q = dIdx last + 1 := by omega
          subst hq
          show schedulesEqual cur (schedAtPos ws (dIdx last + 1)) = true
          rw [← hd, schedAtPos_dIdx]
          exact heq
      exact ih cur start (dispDay (dIdx last + 1)) hinv'
        (by omega) (by rw [hd])
    · rw [if_neg heq]
      have hinv'' : ∀ q, dIdx (dispDay (dIdx last + 1)) ≤ q →
          q ≤ dIdx (dispDay (dIdx last + 1)) →
          schedulesEqual (ws.Days (dispDay (dIdx last + 1)))
            (schedAtPos ws q) = true := by
        intro q h1 h2
        have hq : q = dIdx (dispDay (dIdx last + 1)) := by omega
        subst hq
        rw [schedAtPos_dIdx]
        exact schedulesEqual_refl _
      obtain ⟨ihA, ihB⟩ := ih (ws.Days (dispDay (dIdx last + 1)))
        (dispDay (dIdx last + 1)) (dispDay (dIdx last + 1)) hinv''
        (Nat.le_refl _) (by rw [hd])
      have hpair : ∀ q, dIdx start ≤ q → q < dIdx last →
          schedulesEqual (schedAtPos ws q) (schedAtPos ws (q + 1)) = true := by
        intro q h1 h2
        have e1 := schedulesEqual_iff.mp (hinv q h1 (by omega))
        have e2 := schedulesEqual_iff.mp (hinv (q + 1) (by omega) (by omega))
        exact schedulesEqual_iff.mpr
          ⟨e1.1.symm.trans e2.1, e1.2.symm.trans e2.2⟩
      have hpay : ∀ q, dIdx start ≤ q → q ≤ dIdx last →
          cur.Ranges = (schedAtPos ws q).Ranges ∧
            cur.Closed = (schedAtPos ws q).Closed := by
        intro q h1 h2
        have e := schedulesEqual_iff.mp (hinv q h1 h2)
        exact ⟨e.2, e.1⟩
      constructor
      · intro g hg
        rcases List.mem_cons.mp hg with rfl | hg'
        · exact ⟨hpair, hpay, Nat.le_refl _, hsl,
            show dIdx last ≤ 6 by have := dIdx_lt last; omega⟩
        · obtain ⟨ha, hb, hc, hdd, he⟩ := ihA g hg'
          exact ⟨ha, hb, by omega, hdd, he⟩
      · intro q h1 h2
        rcases Nat.lt_or_ge q (dIdx last + 1) with hlt | hge
        · exact ⟨⟨start, last, cur.Ranges, cur.Closed⟩,
            List.mem_cons_self _ _, h1, by show q ≤ dIdx last; omega⟩
        · obtain ⟨g, hg, hcov⟩ := ihB q (by omega) h2
          exact ⟨g, List.mem_cons_of_mem _ hg, hcov⟩

/-- The grouping specification at the top level: groups of
`groupConsecutiveDays` span runs of pairwise-equal schedules, carry the
covered days' payload, and cover all seven display positions. -/
theorem groupConsecutiveDays_spec (ws : WeekSchedule) :
    (∀ g ∈ groupConsecutiveDays ws,
      (∀ q, dIdx g.StartDay ≤ q → q < dIdx g.EndDay →
        schedulesEqual (schedAtPos ws q) (schedAtPos ws (q + 1)) = true) ∧
      (∀ q, dIdx g.StartDay ≤ q → q ≤ dIdx g.EndDay →
        g.Ranges = (schedAtPos ws q).Ranges ∧
          g.Closed = (schedAtPos ws q).Closed) ∧
      dIdx g.StartDay ≤ dIdx g.EndDay ∧ dIdx g.EndDay ≤ 6) ∧
    (∀ q ≤ 6, ∃ g ∈ groupConsecutiveDays ws, coversPos g q) := by
  have hinv : ∀ q, dIdx Monday ≤ q → q ≤ dIdx Monday →
      schedulesEqual (ws.Days Monday) (schedAtPos ws q) = true := by
    intro q h1 h2
    have hq : q = dIdx Monday := by
      have : dIdx Monday = 0 := by decide
      omega
    subst hq
    rw [schedAtPos_dIdx]
    exact schedulesEqual_refl _
  obtain ⟨hA, hB⟩ := groupAux_spec ws (displayOrder.drop (dIdx Monday + 1))
    (ws.Days Monday) Monday Monday hinv (Nat.le_refl _) rfl
  have hrepr : groupConsecutiveDays ws =
      groupAux ws (ws.Days Monday) Monday Monday
        (displayOrder.drop (dIdx Monday + 1)) := rfl
  constructor
  · intro g hg
    rw [hrepr] at hg
    obtain ⟨ha, hb, _, hc, hd⟩ := hA g hg
    exact ⟨ha, hb, hc, hd⟩
  · intro q hq
    rw [hrepr]
    refine hB q ?_ hq
    have h0 : dIdx Monday = 0 := by decide
    omega

/-- Adjacent display positions with unequal schedules are never covered
by one group. -/
theorem groups_separate {ws : WeekSchedule} {p : Nat}
    (hne : schedulesEqual (schedAtPos ws p) (schedAtPos ws (p + 1)) = false) :
    ∀ g ∈ groupConsecutiveDays ws, ¬(coversPos g p ∧ coversPos g (p + 1)) := by
  intro g hg ⟨⟨ha1, ha2⟩, hb1, hb2⟩
  have heq := ((groupConsecutiveDays_spec ws).1 g hg).1 p ha1 (by omega)
  rw [heq] at hne
  cases hne

/-- A group with an empty range list renders as `Closed`. -/
theorem hoursText_closed_of_empty {g : dayGroup} (h : g.Ranges = []) :
    formatGroup g false = dayPartStr g ++ ' ' :: "Closed".data := by
  unfold formatGroup
  have : hoursText g.Closed g.Ranges = "Closed".data := by
    rw [h]
    unfold hoursText
    rw [if_pos (by simp)]
  rw [this]

end Schedule

section GroupingClaims

open GoString Schedule

/-- C10: two display-adjacent days that both have empty range lists but
different `Closed` flags are never grouped together — `schedulesEqual`
compares the flag itself — although each one's segment renders as
`Closed` (the formatter emits `Closed` whenever the flag is set or the
range list is empty). -/
theorem claim_C10 (ws : WeekSchedule) (p : Nat) (hp : p < 6)
    (hcl₁ : (schedAtPos ws p).Closed = false)
    (hcl₂ : (schedAtPos ws (p + 1)).Closed = true)
    (hr₁ : (schedAtPos ws p).Ranges = [])
    (hr₂ : (schedAtPos ws (p + 1)).Ranges = []) :
    (∃ g ∈ groupConsecutiveDays ws, coversPos g p ∧ ¬coversPos g (p + 1) ∧
      formatGroup g false = dayPartStr g ++ ' ' :: "Closed".data) ∧
    (∃ g ∈ groupConsecutiveDays ws, coversPos g (p + 1) ∧ ¬coversPos g p ∧
      formatGroup g false = dayPartStr g ++ ' ' :: "Closed".data) := by
  have hne : schedulesEqual (schedAtPos ws p) (schedAtPos ws (p + 1)) = false := by
    cases hb : schedulesEqual (schedAtPos ws p) (schedAtPos ws (p + 1)) with
    | false => rfl
    | true =>
      exfalso
      have := (schedulesEqual_iff.mp hb).1
      rw [hcl₁, hcl₂] at this
      cases this
  have hsep := groups_separate hne
  obtain ⟨hA, hB⟩ := groupConsecutiveDays_spec ws
  constructor
  · obtain ⟨g, hg, hcov⟩ := hB p (by omega)
    have hrg : g.Ranges = [] :=
      ((hA g hg).2.1 p hcov.1 hcov.2).1.trans hr₁
    exact ⟨g, hg, hcov, fun hc => hsep g hg ⟨hcov, hc⟩,
      hoursText_closed_of_empty hrg⟩
  · obtain ⟨g, hg, hcov⟩ := hB (p + 1) (by omega)
    have hrg : g.Ranges = [] :=
      ((hA g hg).2.1 (p + 1) hcov.1 hcov.2).1.trans hr₂
    exact ⟨g, hg, hcov, fun hc => hsep g hg ⟨hc, hcov⟩,
      hoursText_closed_of_empty hrg⟩

end GroupingClaims

/-! The sort order on ranges -/

namespace Schedule

open GoString

theorem lexLt_eq_false_iff :
    ∀ x y : List Char, lexLt x y = false ↔ (lexLt y x = true ∨ x = y) := by
  intro x
  induction x with
  | nil =>
    intro y
    cases y with
    | nil => simp [lexLt]
    | cons b bs => simp [lexLt]
  | cons a as ih =>
    intro y
    cases y with
    | nil => simp [lexLt]
    | cons b bs =>
      rcases lt_trichotomy a b with hab | hab | hab
      · simp [lexLt, hab, lt_asymm hab, hab.ne]
      · subst hab
        simp [lexLt, lt_irrefl, ih bs]
      · simp [lexLt, hab, lt_asymm hab]

theorem lexLt_trans :
    ∀ x y z : List Char, lexLt x y = true → lexLt y z = true →
      lexLt x z = true := by
  intro x
  induction x with
  | nil =>
    intro y z hxy hyz
    cases y with
    | nil => cases hxy
    | cons b bs =>
      cases z with
      | nil => cases hyz
      | cons c cs => simp [lexLt]
  | cons a as ih =>
    intro y z hxy hyz
    cases y with
    | nil => cases hxy
    | cons b bs =>
      cases z with
      | nil => cases hyz
      | cons c cs =>
        unfold lexLt at hxy hyz ⊢
        rcases lt_trichotomy a b with hab | hab | hab
        · rcases lt_trichotomy b c with hbc | hbc | hbc
          · rw [if_pos (lt_trans hab hbc)]
          · rw [if_pos (hbc ▸ hab)]
          · rw [if_neg (lt_asymm hbc), if_pos hbc] at hyz
            cases hyz
        · subst hab
          rw [if_neg (lt_irrefl a), if_neg (lt_irrefl a)] at hxy
          rcases lt_trichotomy a c with hac | hac | hac
          · rw [if_pos hac]
          · subst hac
            rw [if_neg (lt_irrefl a), if_neg (lt_irrefl a)] at hyz ⊢
            exact ih bs cs hxy hyz
          · rw [if_neg (lt_asymm hac), if_pos hac] at hyz
            cases hyz
        · rw [if_neg (lt_asymm hab), if_pos hab] at hxy
          cases hxy

instance : IsTotal TimeRange trLe :=
  ⟨fun a b => by
    unfold trLe
    cases hb : lexLt b.Start a.Start with
    | false => exact Or.inl rfl
    | true => exact Or.inr ((lexLt_eq_false_iff _ _).mpr (Or.inl hb))⟩

instance : IsTrans TimeRange trLe :=
  ⟨fun a b c hab hbc => by
    unfold trLe at *
    rcases (lexLt_eq_false_iff _ _).mp hab with h1 | h1
    · rcases (lexLt_eq_false_iff _ _).mp hbc with h2 | h2
      · exact (lexLt_eq_false_iff _ _).mpr
          (Or.inl (lexLt_trans _ _ _ h1 h2))
      · rw [h2]
        exact hab
    · rw [← h1]
      exact hbc⟩

instance : IsAntisymm TimeRange trLtS :=
  ⟨fun a b hab hba => by
    exfalso
    obtain ⟨hab1, hab2⟩ := hab
    obtain ⟨hba1, hba2⟩ := hba
    unfold trLe at hab1 hba1
    rcases (lexLt_eq_false_iff _ _).mp hab1 with h1 | h1
    · rcases (lexLt_eq_false_iff _ _).mp hba1 with h2 | h2
      · rw [hab1] at h2
        cases h2
      · exact hab2 h2
    · exact hab2 h1.symm⟩

/-- Sorting two permutations of the same multiset of ranges with
pairwise-distinct start times yields the same list. -/
theorem insertionSort_eq_of_perm {r₁ r₂ : List TimeRange}
    (hperm : r₁.Perm r₂) (hnd : (r₁.map TimeRange.Start).Nodup) :
    r₁.insertionSort trLe = r₂.insertionSort trLe := by
  have hp₁ : (r₁.insertionSort trLe).Perm r₁ := List.perm_insertionSort trLe r₁
  have hp₂ : (r₂.insertionSort trLe).Perm r₂ := List.perm_insertionSort trLe r₂
  have hpp : (r₁.insertionSort trLe).Perm (r₂.insertionSort trLe) :=
    hp₁.trans (hperm.trans hp₂.symm)
  have hnd₁ : ((r₁.insertionSort trLe).map TimeRange.Start).Nodup :=
    ((hp₁.map TimeRange.Start).nodup_iff).mpr hnd
  have hnd₂ : ((r₂.insertionSort trLe).map TimeRange.Start).Nodup :=
    ((hpp.map TimeRange.Start).nodup_iff).mp hnd₁
  have hne₁ : (r₁.insertionSort trLe).Pairwise
      (fun a b : TimeRange => a.Start ≠ b.Start) :=
    List.pairwise_map.mp hnd₁
  have hne₂ : (r₂.insertionSort trLe).Pairwise
      (fun a b : TimeRange => a.Start ≠ b.Start) :=
    List.pairwise_map.mp hnd₂
  have hs₁ : (r₁.insertionSort trLe).Pairwise trLtS :=
    (List.sorted_insertionSort trLe r₁).and hne₁
  have hs₂ : (r₂.insertionSort trLe).Pairwise trLtS :=
    (List.sorted_insertionSort trLe r₂).and hne₂
  exact List.eq_of_perm_of_sorted hpp hs₁ hs₂

end Schedule

section OrderAsymmetryClaims

open GoString Schedule

/-- C2 (counterexample): the claim also asserts that the two separate
segments render identically; with tied start times that fails.  In
`wsC2`, Monday holds `[09:00-12:00, 09:00-17:00]` and Tuesday the same
set reversed: the days are emitted as separate segments, yet the sorted
renderings differ (`sort.Slice` orders only by start time, so ties keep
insertion order). -/
theorem claim_C2_counterexample :
    ((schedAtPos wsC2 0).Ranges).Perm ((schedAtPos wsC2 1).Ranges) ∧
    (schedAtPos wsC2 0).Ranges ≠ (schedAtPos wsC2 1).Ranges ∧
    (∀ g ∈ groupConsecutiveDays wsC2, ¬(coversPos g 0 ∧ coversPos g 1)) ∧
    renderedRanges (schedAtPos wsC2 0).Ranges ≠
      renderedRanges (schedAtPos wsC2 1).Ranges := by decide

/-- C2 (amended): two display-adjacent days whose range lists are
permutations of each other but not equal (different insertion order)
are always emitted as separate segments — grouping equality compares
stored order — and, when additionally the start times are pairwise
distinct, the two days' rendered (sorted) range lists are identical.
The distinct-starts proviso guards only the render equality; the
separate-segments conclusions hold for tied start times too. -/
theorem claim_C2_amended (ws : WeekSchedule) (p : Nat) (hp : p < 6)
    (hperm : ((schedAtPos ws p).Ranges).Perm ((schedAtPos ws (p + 1)).Ranges))
    (hne : (schedAtPos ws p).Ranges ≠ (schedAtPos ws (p + 1)).Ranges) :
    (∃ g ∈ groupConsecutiveDays ws, coversPos g p ∧ ¬coversPos g (p + 1)) ∧
    (∃ g ∈ groupConsecutiveDays ws, coversPos g (p + 1) ∧ ¬coversPos g p) ∧
    (((schedAtPos ws p).Ranges.map TimeRange.Start).Nodup →
      renderedRanges (schedAtPos ws p).Ranges =
        renderedRanges (schedAtPos ws (p + 1)).Ranges) := by
  have hneq : schedulesEqual (schedAtPos ws p) (schedAtPos ws (p + 1)) = false := by
    cases hb : schedulesEqual (schedAtPos ws p) (schedAtPos ws (p + 1)) with
    | false => rfl
    | true => exact absurd (schedulesEqual_iff.mp hb).2 hne
  have hsep := groups_separate hneq
  obtain ⟨hA, hB⟩ := groupConsecutiveDays_spec ws
  refine ⟨?_, ?_, ?_⟩
  · obtain ⟨g, hg, hcov⟩ := hB p (by omega)
    exact ⟨g, hg, hcov, fun hc => hsep g hg ⟨hcov, hc⟩⟩
  · obtain ⟨g, hg, hcov⟩ := hB (p + 1) (by omega)
    exact ⟨g, hg, hcov, fun hc => hsep g hg ⟨hc, hcov⟩⟩
  · intro hnd
    unfold renderedRanges
    rw [insertionSort_eq_of_perm hperm hnd]

/-- C2 (witness): in `wsC2W` (distinct start times, reversed order on
Tuesday) the hypotheses hold, the amended claim applies at the
Monday/Tuesday boundary and its render-equality implication fires; in
`wsC2` (tied start times) the separate-segments conclusions still
apply. -/
theorem claim_C2_amended_witness :
    (((schedAtPos wsC2W 0).Ranges).Perm ((schedAtPos wsC2W 1).Ranges) ∧
      (schedAtPos wsC2W 0).Ranges ≠ (schedAtPos wsC2W 1).Ranges ∧
      ((schedAtPos wsC2W 0).Ranges.map TimeRange.Start).Nodup) ∧
    ((∃ g ∈ groupConsecutiveDays wsC2W, coversPos g 0 ∧ ¬coversPos g 1) ∧
      (∃ g ∈ groupConsecutiveDays wsC2W, coversPos g 1 ∧ ¬coversPos g 0) ∧
      renderedRanges (schedAtPos wsC2W 0).Ranges =
        renderedRanges (schedAtPos wsC2W 1).Ranges) ∧
    ((∃ g ∈ groupConsecutiveDays wsC2, coversPos g 0 ∧ ¬coversPos g 1) ∧
      (∃ g ∈ groupConsecutiveDays wsC2, coversPos g 1 ∧ ¬coversPos g 0)) :=
  ⟨⟨by decide, by decide, by decide⟩,
    ⟨(claim_C2_amended wsC2W 0 (by decide) (by decide) (by decide)).1,
      (claim_C2_amended wsC2W 0 (by decide) (by decide) (by decide)).2.1,
      (claim_C2_amended wsC2W 0 (by decide) (by decide) (by decide)).2.2
        (by decide)⟩,
    ⟨(claim_C2_amended wsC2 0 (by decide) (by decide) (by decide)).1,
      (claim_C2_amended wsC2 0 (by decide) (by decide) (by decide)).2.1⟩⟩

/-- C10 (witness): in `wsC10`, Monday (open, no ranges) and Tuesday
(closed, no ranges) sit in separate segments, both rendering `Closed`;
the full output shows the two separate `Closed` segments. -/
theorem claim_C10_witness :
    ((schedAtPos wsC10 0).Closed = false ∧
      (schedAtPos wsC10 1).Closed = true ∧
      (schedAtPos wsC10 0).Ranges = [] ∧
      (schedAtPos wsC10 1).Ranges = []) ∧
    ((∃ g ∈ groupConsecutiveDays wsC10, coversPos g 0 ∧ ¬coversPos g 1 ∧
        formatGroup g false = dayPartStr g ++ ' ' :: "Closed".data) ∧
      (∃ g ∈ groupConsecutiveDays wsC10, coversPos g 1 ∧ ¬coversPos g 0 ∧
        formatGroup g false = dayPartStr g ++ ' ' :: "Closed".data)) ∧
    Format wsC10 false = "Mon Closed; Tue-Sun Closed".data :=
  ⟨⟨by decide, by decide, by decide, by decide⟩,
    claim_C10 wsC10 0 (by decide) (by decide) (by decide) (by decide)
      (by decide),
    by decide⟩

end OrderAsymmetryClaims

section NoninterferenceClaim

open GoString Schedule

/-- C8: the verbose-logging flag never influences a returned value —
in the Go code its only reads guard `log.Printf` calls (I/O, outside
the value semantics), so `Parse` and `Format` return the same results
for both flag values. -/
theorem claim_C8 :
    (∀ s : List Char, Parse s true = Parse s false) ∧
      ∀ ws : WeekSchedule, Format ws true = Format ws false :=
  ⟨fun _ => rfl, fun _ => rfl⟩

end NoninterferenceClaim

/-! Frame property of the store-passing formatter -/

namespace Schedule

open GoString

/-- The function `formatGroupM` changes no pre-existing slice: it only appends a
fresh backing array and sorts that fresh array in place. -/
theorem formatGroupM_frame (st : Store) (g : dayGroupM) :
    st.length ≤ (formatGroupM st g).1.length ∧
      ∀ r < st.length, readS (formatGroupM st g).1 r = readS st r := by
  unfold formatGroupM
  by_cases hc : (g.Closed || (readS st g.RangesRef).length == 0) = true
  · rw [if_pos hc]
    exact ⟨Nat.le_refl _, fun r _ => rfl⟩
  · rw [if_neg hc]
    refine ⟨?_, ?_⟩
    · show st.length ≤ ((st ++ [readS st g.RangesRef]).set st.length _).length
      rw [List.length_set, List.length_append]
      omega
    · intro r hr
      show readS ((st ++ [readS st g.RangesRef]).set st.length _) r = readS st r
      unfold readS
      rw [List.getElem?_set_ne (by omega),
        List.getElem?_append_left (by omega)]

/-- The formatting fold over the groups preserves every slice that
existed before it started. -/
theorem formatFold_frame (gs : List dayGroupM) :
    ∀ (acc : Store × List (List Char)) (r : Nat), r < acc.1.length →
      readS (gs.foldl
        (fun (acc : Store × List (List Char)) g =>
          let (st', part) := formatGroupM acc.1 g
          (st', acc.2 ++ [part])) acc).1 r = readS acc.1 r := by
  induction gs with
  | nil => intro acc r _; rfl
  | cons g rest ih =>
    intro acc r hr
    simp only [List.foldl_cons]
    obtain ⟨hlen, hframe⟩ := formatGroupM_frame acc.1 g
    rw [ih ((formatGroupM acc.1 g).1, acc.2 ++ [(formatGroupM acc.1 g).2])
      r (by dsimp only; omega)]
    exact hframe r hr

end Schedule

section FrameClaim

open GoString Schedule

/-- C9: `Format` does not mutate its `WeekSchedule` argument.  In the
store model every day's ranges slice (including its insertion order)
reads back unchanged after formatting: the formatter sorts only the
fresh copies it allocates, never a slice reachable from the schedule. -/
theorem claim_C9 (st : Store) (ws : WeekScheduleM) (debug : Bool)
    (i : Fin 7) (h : (ws.Days i).RangesRef < st.length) :
    readS (FormatM st ws debug).1 ((ws.Days i).RangesRef) =
      readS st ((ws.Days i).RangesRef) := by
  unfold FormatM
  exact formatFold_frame (groupConsecutiveDaysM st ws) (st, [])
    ((ws.Days i).RangesRef) h

end FrameClaim

section FrameWitness

open GoString Schedule

/-- C9 (witness): formatting the concrete store-backed week leaves the
original backing array — including its unsorted insertion order —
unchanged. -/
theorem claim_C9_witness :
    (wsC9.Days Monday).RangesRef < stC9.length ∧
      readS (FormatM stC9 wsC9 false).1 ((wsC9.Days Monday).RangesRef) =
        readS stC9 ((wsC9.Days Monday).RangesRef) :=
  ⟨by decide, claim_C9 stC9 wsC9 false Monday (by decide)⟩

end FrameWitness
